import Mathlib

/-!
Shallow embedding of the entity-resolution core of the repository
(file src/packages/ai_engineering/src/archive/people_resolution.py):
name normalization, similarity-matrix construction, hierarchical
clustering, cluster-representative selection and attribute-conflict
validation, together with proofs of the behavioural properties stated
for these functions.
-/

set_option maxHeartbeats 1000000

namespace PeopleRes

/-- Whitespace characters: the ASCII characters matched by the regex
class backslash-s, by Python str.split() and by str.strip().  Non-ASCII
Unicode whitespace is not modelled. -/
def isPySpace (c : Char) : Bool :=
  c = ' ' || c = '\t' || c = '\n' || c = '\r' || c = '\x0b' || c = '\x0c'

/-- Characters kept by the substitution re.sub dropping everything
outside lowercase ASCII letters, digits and whitespace. -/
def keepChar (c : Char) : Bool :=
  (('a' ≤ c) && (c ≤ 'z')) || (('0' ≤ c) && (c ≤ '9')) || isPySpace c

/-- Replacement of every maximal whitespace run by a single space
(the second regex substitution in normalize_name).  The boolean argument
records whether the previous character was whitespace, i.e. whether we
are inside a run whose single space was already emitted. -/
def collapseWs : Bool → List Char → List Char
  | _, [] => []
  | inRun, c :: rest =>
    if isPySpace c then
      if inRun then collapseWs true rest else ' ' :: collapseWs true rest
    else c :: collapseWs false rest

/-- Python str.strip(): drop leading and trailing whitespace. -/
def stripChars (l : List Char) : List Char :=
  ((l.dropWhile isPySpace).reverse.dropWhile isPySpace).reverse

/-- Embedding of normalize_name: lower-case, NFKD-decompose, drop every
character outside lowercase letters / digits / whitespace, collapse
whitespace runs to single spaces, strip.  Python str.lower and
unicodedata.normalize are library functions and enter the embedding as
the parameters lower and nfkd. -/
def normalize_name (lower nfkd : String → String) (name : String) : String :=
  ⟨stripChars (collapseWs false (((nfkd (lower name)).data).filter keepChar))⟩

/-- The constant DUTCH_PARTICLES (a Python set literal; modelled as the
list of its elements, used only through membership). -/
def DUTCH_PARTICLES : List String :=
  ["van", "de", "den", "der", "ten", "ter", "van de", "van den"]

/-- Python str.split() with no arguments: split on whitespace runs,
dropping empty tokens.  The accumulator holds the current token in
reverse. -/
def splitAux (cur : List Char) : List Char → List (List Char)
  | [] => if cur = [] then [] else [cur.reverse]
  | c :: rest =>
    if isPySpace c then
      if cur = [] then splitAux [] rest else cur.reverse :: splitAux [] rest
    else splitAux (c :: cur) rest

def splitWs (l : List Char) : List (List Char) := splitAux [] l

def pySplit (s : String) : List String := (splitWs s.data).map (fun t => ⟨t⟩)

/-- Python " ".join(tokens), on the character level. -/
def joinSp : List (List Char) → List Char
  | [] => []
  | [t] => t
  | t :: ts => t ++ ' ' :: joinSp ts

def joinTokens (ts : List String) : String := ⟨joinSp (ts.map String.data)⟩

/-- Embedding of normalize_dutch_name: normalize, tokenize on
whitespace, drop the tokens that are Dutch particles, re-join with
single spaces. -/
def normalize_dutch_name (lower nfkd : String → String) (name : String) : String :=
  joinTokens ((pySplit (normalize_name lower nfkd name)).filter
    (fun t => !(decide (t ∈ DUTCH_PARTICLES))))

/-- Characters that can appear in the output of normalize_name:
lowercase ASCII letters, digits and the single space. -/
def goodChar (c : Char) : Bool :=
  (('a' ≤ c) && (c ≤ 'z')) || (('0' ≤ c) && (c ≤ '9')) || c = ' '

/-- Auxiliary predicate: no two adjacent whitespace characters. -/
def noDouble : List Char → Bool
  | c :: d :: rest => (!(isPySpace c && isPySpace d)) && noDouble (d :: rest)
  | _ => true

/-- ASCII-only model of Python str.lower, used to instantiate the
lower-casing parameter of the embedding on concrete inputs. -/
def asciiLowerChar (c : Char) : Char :=
  if ('A' ≤ c) && (c ≤ 'Z') then Char.ofNat (c.toNat + 32) else c

def asciiLower (s : String) : String := ⟨s.data.map asciiLowerChar⟩

/-- A value read from the name column: either a Python string or a
non-string value (for instance the NaN a missing field turns into). -/
inductive PyVal where
  | pystr (s : String)
  | nonStr (tag : String)
deriving DecidableEq

def PyVal.isStr : PyVal → Bool
  | .pystr _ => true
  | .nonStr _ => false

/-- Application of normalize_dutch_name to a cell value.  On a
non-string value the attribute access name.lower() raises
AttributeError; embedded as the error case. -/
def normalize_dutch_name_val (lower nfkd : String → String) :
    PyVal → Except String String
  | .pystr s => .ok (normalize_dutch_name lower nfkd s)
  | .nonStr _ => .error ("AttributeError")

/-- The n-by-n zero matrix np.zeros((n, n)). -/
def zeros2 (n : Nat) : List (List ℚ) := List.replicate n (List.replicate n 0)

/-- Write one matrix entry. -/
def set2d (m : List (List ℚ)) (i j : Nat) (v : ℚ) : List (List ℚ) :=
  m.set i ((m.getD i []).set j v)

/-- Read one matrix entry (0 outside the carried shape). -/
def get2d (m : List (List ℚ)) (i j : Nat) : ℚ := (m.getD i []).getD j 0

/-- The index pairs (i, j) with i < j < n visited by the double loop
for i in range(n): for j in range(i + 1, n). -/
def pairsUpper (n : Nat) : List (Nat × Nat) :=
  (List.range n).flatMap
    (fun i => (List.range n).filterMap (fun j => if i < j then some (i, j) else none))

/-- Embedding of compute_similarity_matrix.  The scorer
rapidfuzz.fuzz.partial_ratio is a library function and enters as the
parameter score; each loop iteration normalizes both names (which can
raise on non-string values) and writes the score at (i, j) and (j, i). -/
def compute_similarity_matrix (lower nfkd : String → String)
    (score : String → String → ℚ) (names : List PyVal) :
    Except String (List (List ℚ)) :=
  (pairsUpper names.length).foldlM
    (fun m p => do
      let a ← normalize_dutch_name_val lower nfkd (names.getD p.1 (.nonStr ""))
      let b ← normalize_dutch_name_val lower nfkd (names.getD p.2 (.nonStr ""))
      pure (set2d (set2d m p.1 p.2 (score a b)) p.2 p.1 (score a b)))
    (zeros2 names.length)

/-- Longest value of a list with ties broken by the first occurrence:
the value at the index returned by idxmax over the character lengths
(idxmax returns the first index attaining the maximum). -/
def longestFirst : List String → Option String
  | [] => none
  | a :: l =>
    match longestFirst l with
    | none => some a
    | some b => if b.length > a.length then some b else some a

/-- The name-column values of the rows of one cluster, in input order.
A row is modelled by the two columns find_representative reads: the
name value and the cluster id. -/
def clusterNames (rows : List (String × Nat)) (c : Nat) : List String :=
  (rows.filter (fun r => decide (r.2 = c))).map (fun r => r.1)

/-- Embedding of find_representative: per cluster the longest name (ties
to the first occurrence in input order) is chosen, and every row is
annotated with the representative of its own cluster. -/
def find_representative (rows : List (String × Nat)) :
    List (String × Nat × String) :=
  rows.map (fun r => (r.1, r.2, (longestFirst (clusterNames rows r.2)).getD ""))

/-- A cell value of the clustered frame: a string, an integer (cluster
ids are integers after astype(int) upstream), or a list of strings for
the list-valued attributes. -/
inductive Val where
  | str (s : String)
  | nat (n : Nat)
  | lst (l : List String)
deriving DecidableEq

/-- A data frame: the ordered column names, and the rows, each row a
list of optional cells aligned with the columns (none is a null). -/
structure DFrame where
  cols : List String
  rows : List (List (Option Val))
deriving DecidableEq

/-- The cell of a row at a named column. -/
def cellAt (df : DFrame) (col : String) (row : List (Option Val)) : Option Val :=
  match df.cols.findIdx? (fun c => decide (c = col)) with
  | some k => row.getD k none
  | none => none

/-- The group key of a row under groupby on the cluster column.  Rows
whose key is null are dropped by pandas groupby; the keys in the
modelled domain are integers. -/
def rowKey (df : DFrame) (ccol : String) (row : List (Option Val)) : Option Nat :=
  match cellAt df ccol row with
  | some (.nat n) => some n
  | _ => none

/-- First-occurrence deduplication, with an accumulator of the values
already seen: pandas Series.unique keeps the first occurrence of each
distinct value, and a Python set built from a list holds each distinct
element once. -/
def uniqueFirstAux {α : Type} [DecidableEq α] (seen : List α) : List α → List α
  | [] => []
  | a :: l =>
    if a ∈ seen then uniqueFirstAux seen l
    else a :: uniqueFirstAux (a :: seen) l

def uniqueFirst {α : Type} [DecidableEq α] (l : List α) : List α :=
  uniqueFirstAux [] l

/-- The distinct group keys in ascending order: pandas groupby iterates
its groups in sorted key order. -/
def sortedKeys (df : DFrame) (ccol : String) : List Nat :=
  List.insertionSort (· ≤ ·) (uniqueFirst (df.rows.filterMap (rowKey df ccol)))

/-- The rows of one cluster, in input order. -/
def clusterRows (df : DFrame) (ccol : String) (c : Nat) : List (List (Option Val)) :=
  df.rows.filter (fun row => decide (rowKey df ccol row = some c))

/-- The non-null values of a column across one cluster's rows
(Series.dropna), in row order. -/
def nonNullAt (df : DFrame) (ccol : String) (c : Nat) (col : String) : List Val :=
  (clusterRows df ccol c).filterMap (fun row => cellAt df col row)

/-- Python set(v) for a cell value: a list becomes its set of elements
and a string its set of characters.  Python raises TypeError on set() of
an integer; that case is outside the modelled domain (the theorems
evaluate list columns only at iterable values) and is embedded as the
empty set. -/
def pySet : Val → List String
  | .lst l => uniqueFirst l
  | .str s => uniqueFirst (s.data.map (fun c => (⟨[c]⟩ : String)))
  | .nat _ => []

/-- Intersection of a family of sets, set.intersection of the first
with the rest. -/
def interAll : List (List String) → List String
  | [] => []
  | s :: rest => rest.foldl (fun acc t => acc.filter (fun x => decide (x ∈ t))) s

/-- One record of the conflict report. -/
structure ConflictRecord where
  cluster : Nat
  attr : String
  values : List Val
deriving DecidableEq

/-- The conflict check of one (cluster, column) pair of the validation
loop: none when the column is not validated, when the cluster has no
non-null value in it, or when there is no conflict; otherwise the
conflict record with its payload. -/
def cellCheck (df : DFrame) (ccol : String) (listCols filterCols : List String)
    (c : Nat) (col : String) : Option ConflictRecord :=
  if col ∈ filterCols then
    let vals := nonNullAt df ccol c col
    if vals = [] then none
    else if col ∈ listCols then
      let sets := vals.map pySet
      if interAll sets = [] then some ⟨c, col, sets.map Val.lst⟩ else none
    else
      let u := uniqueFirst vals
      if 1 < u.length then some ⟨c, col, u⟩ else none
  else none

/-- Embedding of validate_cluster_attributes: the assert rejects a
validation request for the name column; otherwise conflicts are
collected per cluster (groupby iterates keys in sorted order) and,
within a cluster, per column in the order of the frame's columns. -/
def validate_cluster_attributes (df : DFrame) (ccol : String)
    (listCols filterCols : List String) : Except String (List ConflictRecord) :=
  if "name" ∈ filterCols then
    .error ("AssertionError: The column name should not be among filter_cols.")
  else
    .ok ((sortedKeys df ccol).flatMap
      (fun c => df.cols.filterMap (cellCheck df ccol listCols filterCols c)))

/-- Concrete frame for the report-ordering counterexample: cluster 2 is
encountered first in input order, and both clusters carry a scalar
conflict on column a. -/
def exOrderDf : DFrame :=
  ⟨["cluster_id", "a"],
   [[some (.nat 2), some (.str "x")],
    [some (.nat 2), some (.str "y")],
    [some (.nat 1), some (.str "u")],
    [some (.nat 1), some (.str "v")]]⟩

/-- Concrete frame for the conflict-validation witness: one cluster with
a scalar nationality conflict and an agreeing list-valued occupation. -/
def exValDf : DFrame :=
  ⟨["cluster_id", "nationality", "occupation"],
   [[some (.nat 1), some (.str "Dutch"), some (.lst ["teacher"])],
    [some (.nat 1), some (.str "Belgian"), some (.lst ["teacher", "mayor"])]]⟩

/-- A dendrogram: the merge tree produced by the linkage algorithm.
Every internal node records the linkage distance at which its two
subtrees were merged. -/
inductive CTree where
  | leaf (i : Nat)
  | node (h : ℚ) (l r : CTree)
deriving DecidableEq

/-- The observations (record indices) under a subtree. -/
def leavesT : CTree → List Nat
  | .leaf i => [i]
  | .node _ l r => leavesT l ++ leavesT r

/-- The largest merge height inside a subtree: the maximum cophenetic
distance between two of its observations. -/
def maxDist : CTree → ℚ
  | .leaf _ => 0
  | .node h l r => max h (max (maxDist l) (maxDist r))

/-- The pairwise distance fed to the linkage: 1 - similarity/100, with
the diagonal forced to zero (np.fill_diagonal) and the strict upper
triangle of the matrix mirrored, as squareform does for the (validated
symmetric) input. -/
def toDist (sim : List (List ℚ)) (i j : Nat) : ℚ :=
  if i = j then 0
  else if i < j then 1 - get2d sim i j / 100
  else 1 - get2d sim j i / 100

def sumD (d : Nat → Nat → ℚ) (xs ys : List Nat) : ℚ :=
  (xs.map (fun x => (ys.map (fun y => d x y)).sum)).sum

/-- Average-linkage distance between two clusters: the mean of the
pairwise distances between their observations. -/
def avgDist (d : Nat → Nat → ℚ) (t1 t2 : CTree) : ℚ :=
  sumD d (leavesT t1) (leavesT t2)
    / ((leavesT t1).length * (leavesT t2).length)

/-- The pair of active clusters at minimal average distance (first such
pair in scan order; scipy's tie order may differ, which affects no
property proved here). -/
def bestPairStep (d : Nat → Nat → ℚ) (ts : List CTree)
    (best : Option (Nat × Nat × ℚ)) (p : Nat × Nat) : Option (Nat × Nat × ℚ) :=
  let hp := avgDist d (ts.getD p.1 (.leaf 0)) (ts.getD p.2 (.leaf 0))
  match best with
  | none => some (p.1, p.2, hp)
  | some (i, j, hb) => if hp < hb then some (p.1, p.2, hp) else some (i, j, hb)

def bestPair (d : Nat → Nat → ℚ) (ts : List CTree) : Option (Nat × Nat × ℚ) :=
  (pairsUpper ts.length).foldl (bestPairStep d ts) none

/-- One agglomeration step: remove the two closest clusters and append
their merge. -/
def mergeStep (d : Nat → Nat → ℚ) (ts : List CTree) : List CTree :=
  match bestPair d ts with
  | none => ts
  | some (i, j, h) =>
    ((ts.eraseIdx j).eraseIdx i)
      ++ [.node h (ts.getD i (.leaf 0)) (ts.getD j (.leaf 0))]

/-- The agglomeration loop of linkage: merge until one cluster is left. -/
def linkLoop (d : Nat → Nat → ℚ) : Nat → List CTree → List CTree
  | 0, ts => ts
  | fuel + 1, ts => if ts.length ≤ 1 then ts else linkLoop d fuel (mergeStep d ts)

/-- The flat clusters of fcluster with the distance criterion: the
maximal subtrees whose maximum cophenetic distance does not exceed the
threshold, as lists of observations. -/
def cutTree (t : ℚ) : CTree → List (List Nat)
  | .leaf i => [[i]]
  | .node h l r =>
    if max h (max (maxDist l) (maxDist r)) ≤ t then [leavesT l ++ leavesT r]
    else cutTree t l ++ cutTree t r

/-- The flat-cluster id of an observation: the index of its flat
cluster (the numbering differs from scipy's 1-based one, which only
relabels ids). -/
def clusterIdAux (i : Nat) : Nat → List (List Nat) → Option Nat
  | _, [] => none
  | k, cl :: rest => if i ∈ cl then some k else clusterIdAux i (k + 1) rest

def clusterId (cut : List (List Nat)) (i : Nat) : Option Nat :=
  clusterIdAux i 0 cut

/-- Embedding of hierarchical_clustering: similarity is converted to
distance, the condensed distance list is handed to average linkage, and
the dendrogram is cut at the threshold.  With fewer than 2 observations
the condensed distance list is empty and scipy's linkage raises; that is
the error case. -/
def hierarchical_clustering (sim : List (List ℚ)) (t : ℚ) :
    Except String (List (Option Nat)) :=
  if sim.length < 2 then
    .error ("ValueError: The number of observations cannot be determined on an empty distance matrix.")
  else
    match linkLoop (toDist sim) sim.length ((List.range sim.length).map .leaf) with
    | [tree] => .ok ((List.range sim.length).map (clusterId (cutTree t tree)))
    | _ => .error ("linkage failed")

/-! ## Theorems -/

theorem goodChar_keep {c : Char} (h : goodChar c = true) : keepChar c = true := by
  unfold goodChar at h
  unfold keepChar
  rcases (Bool.or_eq_true _ _).mp h with h1 | h1
  · exact (Bool.or_eq_true _ _).mpr (Or.inl h1)
  · have hc : c = ' ' := of_decide_eq_true h1
    subst hc; decide

theorem goodChar_of_keep_not_space {c : Char} (hk : keepChar c = true)
    (hs : isPySpace c = false) : goodChar c = true := by
  unfold keepChar at hk
  unfold goodChar
  rcases (Bool.or_eq_true _ _).mp hk with h1 | h1
  · exact (Bool.or_eq_true _ _).mpr (Or.inl h1)
  · rw [h1] at hs; cases hs

theorem mem_collapseWs : ∀ (b : Bool) (l : List Char) (c : Char),
    c ∈ collapseWs b l → c = ' ' ∨ (c ∈ l ∧ isPySpace c = false) := by
  intro b l
  induction l generalizing b with
  | nil => intro c h; simp [collapseWs] at h
  | cons a rest ih =>
    intro c h
    by_cases ha : isPySpace a
    · rw [collapseWs, if_pos ha] at h
      by_cases hb : b
      · subst hb
        rw [if_pos rfl] at h
        rcases ih true c h with h1 | h1
        · exact Or.inl h1
        · exact Or.inr ⟨List.mem_cons_of_mem _ h1.1, h1.2⟩
      · simp only [Bool.not_eq_true] at hb
        subst hb
        rw [if_neg (by simp)] at h
        rcases List.mem_cons.mp h with h1 | h1
        · exact Or.inl h1
        · rcases ih true c h1 with h2 | h2
          · exact Or.inl h2
          · exact Or.inr ⟨List.mem_cons_of_mem _ h2.1, h2.2⟩
    · rw [collapseWs, if_neg ha] at h
      rcases List.mem_cons.mp h with h1 | h1
      · subst h1
        exact Or.inr ⟨List.mem_cons_self _ _, by simpa using ha⟩
      · rcases ih false c h1 with h2 | h2
        · exact Or.inl h2
        · exact Or.inr ⟨List.mem_cons_of_mem _ h2.1, h2.2⟩

theorem mem_stripChars {l : List Char} {c : Char} (h : c ∈ stripChars l) : c ∈ l := by
  unfold stripChars at h
  rw [List.mem_reverse] at h
  have h1 := (List.dropWhile_sublist (l := (l.dropWhile isPySpace).reverse)
    (p := isPySpace)).subset h
  rw [List.mem_reverse] at h1
  exact (List.dropWhile_sublist (l := l) (p := isPySpace)).subset h1

theorem normalize_chars_good (lower nfkd : String → String) (x : String) :
    ∀ c ∈ (normalize_name lower nfkd x).data, goodChar c = true := by
  intro c hc
  have hc2 : c ∈ collapseWs false (((nfkd (lower x)).data).filter keepChar) :=
    mem_stripChars hc
  rcases mem_collapseWs _ _ _ hc2 with h | h
  · subst h; simp [goodChar]
  · exact goodChar_of_keep_not_space (List.of_mem_filter h.1) h.2

theorem goodChar_space {c : Char} (hg : goodChar c = true) (hs : isPySpace c = true) :
    c = ' ' := by
  unfold isPySpace at hs
  rcases (Bool.or_eq_true _ _).mp hs with h | h
  · rcases (Bool.or_eq_true _ _).mp h with h | h
    · rcases (Bool.or_eq_true _ _).mp h with h | h
      · rcases (Bool.or_eq_true _ _).mp h with h | h
        · rcases (Bool.or_eq_true _ _).mp h with h | h
          · exact of_decide_eq_true h
          · rw [of_decide_eq_true h] at hg; exact absurd hg (by decide)
        · rw [of_decide_eq_true h] at hg; exact absurd hg (by decide)
      · rw [of_decide_eq_true h] at hg; exact absurd hg (by decide)
    · rw [of_decide_eq_true h] at hg; exact absurd hg (by decide)
  · rw [of_decide_eq_true h] at hg; exact absurd hg (by decide)

theorem noDouble_tail {c : Char} {l : List Char} (h : noDouble (c :: l) = true) :
    noDouble l = true := by
  cases l with
  | nil => rfl
  | cons d r => exact (Bool.and_eq_true _ _ |>.mp h).2

theorem noDouble_cons_of {c : Char} {l : List Char} (h : noDouble l = true)
    (hhead : ∀ d, l.head? = some d → ¬(isPySpace c = true ∧ isPySpace d = true)) :
    noDouble (c :: l) = true := by
  cases l with
  | nil => rfl
  | cons d r =>
    have hd := hhead d rfl
    simp only [noDouble, Bool.and_eq_true]
    refine ⟨?_, h⟩
    by_cases h1 : isPySpace c = true
    · by_cases h2 : isPySpace d = true
      · exact absurd ⟨h1, h2⟩ hd
      · simp [Bool.not_eq_true] at h2; simp [h1, h2]
    · simp [Bool.not_eq_true] at h1; simp [h1]

theorem collapseWs_true_head : ∀ (l : List Char) (d : Char),
    (collapseWs true l).head? = some d → isPySpace d = false := by
  intro l
  induction l with
  | nil => intro d h; simp [collapseWs] at h
  | cons a rest ih =>
    intro d h
    by_cases ha : isPySpace a
    · rw [collapseWs, if_pos ha, if_pos rfl] at h
      exact ih d h
    · rw [collapseWs, if_neg ha] at h
      simp only [List.head?_cons, Option.some.injEq] at h
      subst h
      simpa using ha

theorem noDouble_collapseWs : ∀ (b : Bool) (l : List Char),
    noDouble (collapseWs b l) = true := by
  intro b l
  induction l generalizing b with
  | nil => rfl
  | cons a rest ih =>
    by_cases ha : isPySpace a
    · rw [collapseWs, if_pos ha]
      by_cases hb : b
      · subst hb; rw [if_pos rfl]; exact ih true
      · simp only [Bool.not_eq_true] at hb
        subst hb
        rw [if_neg (by simp)]
        refine noDouble_cons_of (ih true) ?_
        intro d hd
        intro hcon
        rw [collapseWs_true_head rest d hd] at hcon
        cases hcon.2
    · rw [collapseWs, if_neg ha]
      refine noDouble_cons_of (ih false) ?_
      intro d _ hcon
      rw [hcon.1] at ha
      exact ha rfl

theorem noDouble_append_right : ∀ (a b : List Char),
    noDouble (a ++ b) = true → noDouble b = true := by
  intro a
  induction a with
  | nil => intro b h; exact h
  | cons x a' ih => intro b h; exact ih b (noDouble_tail h)

theorem noDouble_append_left : ∀ (a b : List Char),
    noDouble (a ++ b) = true → noDouble a = true := by
  intro a
  induction a with
  | nil => intro b _; rfl
  | cons x a' ih =>
    intro b h
    cases a' with
    | nil => rfl
    | cons y a'' =>
      have h1 : noDouble (y :: a'') = true := ih b (noDouble_tail h)
      have h2 := (Bool.and_eq_true _ _ |>.mp h).1
      simp only [noDouble, Bool.and_eq_true]
      exact ⟨h2, h1⟩

theorem stripChars_decomp (l : List Char) :
    ∃ a b, l = a ++ stripChars l ++ b := by
  refine ⟨l.takeWhile isPySpace,
    ((l.dropWhile isPySpace).reverse.takeWhile isPySpace).reverse, ?_⟩
  unfold stripChars
  have h1 : l = l.takeWhile isPySpace ++ l.dropWhile isPySpace :=
    (List.takeWhile_append_dropWhile isPySpace l).symm
  nth_rewrite 1 [h1]
  rw [List.append_assoc]
  congr 1
  have h2 : (l.dropWhile isPySpace).reverse =
      (l.dropWhile isPySpace).reverse.takeWhile isPySpace ++
      (l.dropWhile isPySpace).reverse.dropWhile isPySpace :=
    (List.takeWhile_append_dropWhile isPySpace (l.dropWhile isPySpace).reverse).symm
  calc l.dropWhile isPySpace
      = (l.dropWhile isPySpace).reverse.reverse := by rw [List.reverse_reverse]
    _ = ((l.dropWhile isPySpace).reverse.takeWhile isPySpace ++
        (l.dropWhile isPySpace).reverse.dropWhile isPySpace).reverse := by rw [← h2]
    _ = ((l.dropWhile isPySpace).reverse.dropWhile isPySpace).reverse ++
        ((l.dropWhile isPySpace).reverse.takeWhile isPySpace).reverse := by
          rw [List.reverse_append]

theorem noDouble_stripChars {l : List Char} (h : noDouble l = true) :
    noDouble (stripChars l) = true := by
  obtain ⟨a, b, hab⟩ := stripChars_decomp l
  rw [hab] at h
  rw [List.append_assoc] at h
  exact noDouble_append_left _ _ (noDouble_append_right _ _ h)

theorem collapseWs_eq_self : ∀ (l : List Char), noDouble l = true →
    (∀ c ∈ l, isPySpace c = true → c = ' ') → collapseWs false l = l := by
  intro l
  induction l with
  | nil => intro _ _; rfl
  | cons c rest ih =>
    intro hnd hsp
    by_cases hc : isPySpace c
    · have hc' : c = ' ' := hsp c (List.mem_cons_self _ _) hc
      rw [collapseWs, if_pos hc, if_neg (by simp)]
      cases rest with
      | nil => rw [hc']; rfl
      | cons d r =>
        have hd : isPySpace d = false := by
          have h1 := (Bool.and_eq_true _ _ |>.mp hnd).1
          by_cases h2 : isPySpace d
          · rw [hc, h2] at h1; cases h1
          · simpa using h2
        rw [collapseWs, if_neg (by simp [hd])]
        have htail : collapseWs false (d :: r) = d :: r :=
          ih (noDouble_tail hnd) (fun x hx => hsp x (List.mem_cons_of_mem _ hx))
        rw [collapseWs, if_neg (by simp [hd])] at htail
        rw [htail, hc']
    · rw [collapseWs, if_neg hc]
      rw [ih (noDouble_tail hnd) (fun x hx => hsp x (List.mem_cons_of_mem _ hx))]

theorem dropWhile_head_not : ∀ (l : List Char) (d : Char),
    (l.dropWhile isPySpace).head? = some d → isPySpace d = false := by
  intro l
  induction l with
  | nil => intro d h; simp [List.dropWhile] at h
  | cons a rest ih =>
    intro d h
    by_cases ha : isPySpace a
    · rw [List.dropWhile_cons_of_pos ha] at h
      exact ih d h
    · rw [List.dropWhile_cons_of_neg ha] at h
      simp only [List.head?_cons, Option.some.injEq] at h
      subst h
      simpa using ha

theorem dropWhile_eq_self_of_head {l : List Char}
    (h : ∀ d, l.head? = some d → isPySpace d = false) :
    l.dropWhile isPySpace = l := by
  cases l with
  | nil => rfl
  | cons a rest =>
    have := h a rfl
    rw [List.dropWhile_cons_of_neg (by simp [this])]

theorem stripChars_idem (l : List Char) : stripChars (stripChars l) = stripChars l := by
  have hstep1 : (stripChars l).dropWhile isPySpace = stripChars l := by
    apply dropWhile_eq_self_of_head
    intro d hd
    -- the head of stripChars l, when it exists, is the head of dropWhile isPySpace l
    have hdec : l.dropWhile isPySpace =
        stripChars l ++ ((l.dropWhile isPySpace).reverse.takeWhile isPySpace).reverse := by
      unfold stripChars
      calc l.dropWhile isPySpace
          = (l.dropWhile isPySpace).reverse.reverse := by rw [List.reverse_reverse]
        _ = ((l.dropWhile isPySpace).reverse.takeWhile isPySpace ++
            (l.dropWhile isPySpace).reverse.dropWhile isPySpace).reverse := by
              rw [List.takeWhile_append_dropWhile]
        _ = ((l.dropWhile isPySpace).reverse.dropWhile isPySpace).reverse ++
            ((l.dropWhile isPySpace).reverse.takeWhile isPySpace).reverse := by
              rw [List.reverse_append]
    cases hsl : stripChars l with
    | nil => rw [hsl] at hd; cases hd
    | cons x xs =>
      rw [hsl] at hd
      simp only [List.head?_cons, Option.some.injEq] at hd
      subst hd
      apply dropWhile_head_not l
      rw [hdec, hsl]
      rfl
  have hstep2 : (stripChars l).reverse.dropWhile isPySpace = (stripChars l).reverse := by
    unfold stripChars
    rw [List.reverse_reverse]
    apply dropWhile_eq_self_of_head
    intro d hd
    exact dropWhile_head_not _ d hd
  unfold stripChars
  show (((stripChars l).dropWhile isPySpace).reverse.dropWhile isPySpace).reverse
      = stripChars l
  rw [hstep1, hstep2, List.reverse_reverse]

theorem normalize_name_fixed (lower nfkd : String → String)
    (hlower : ∀ s : String, (∀ c ∈ s.data, goodChar c = true) → lower s = s)
    (hnfkd : ∀ s : String, (∀ c ∈ s.data, goodChar c = true) → nfkd s = s)
    (s : String)
    (hgood : ∀ c ∈ s.data, goodChar c = true)
    (hnd : noDouble s.data = true)
    (hstrip : stripChars s.data = s.data) :
    normalize_name lower nfkd s = s := by
  unfold normalize_name
  rw [hlower s hgood, hnfkd s hgood]
  rw [List.filter_eq_self.mpr (fun c hc => goodChar_keep (hgood c hc))]
  rw [collapseWs_eq_self s.data hnd
    (fun c hc hsp => goodChar_space (hgood c hc) hsp)]
  rw [hstrip]

/-- C3: normalization is idempotent.  The parameters lower and nfkd stand
for Python str.lower and NFKD normalization; the hypotheses record the
(true) facts that both fix strings made of lowercase ASCII letters,
digits and spaces. -/
theorem normalize_name_idempotent (lower nfkd : String → String)
    (hlower : ∀ s : String, (∀ c ∈ s.data, goodChar c = true) → lower s = s)
    (hnfkd : ∀ s : String, (∀ c ∈ s.data, goodChar c = true) → nfkd s = s)
    (x : String) :
    normalize_name lower nfkd (normalize_name lower nfkd x)
      = normalize_name lower nfkd x := by
  apply normalize_name_fixed lower nfkd hlower hnfkd
  · exact normalize_chars_good lower nfkd x
  · show noDouble (stripChars (collapseWs false _)) = true
    exact noDouble_stripChars (noDouble_collapseWs false _)
  · show stripChars (stripChars (collapseWs false _)) = stripChars _
    exact stripChars_idem _

/-- Witness for C3 at a concrete input, instantiating the library
parameters with the identity (which trivially fixes normalized strings). -/
theorem normalize_name_idempotent_witness :
    normalize_name (fun s => s) (fun s => s)
        (normalize_name (fun s => s) (fun s => s) "  Jan  van de  Berg!? ")
      = normalize_name (fun s => s) (fun s => s) "  Jan  van de  Berg!? " :=
  normalize_name_idempotent (fun s => s) (fun s => s)
    (fun _ _ => rfl) (fun _ _ => rfl) "  Jan  van de  Berg!? "

theorem splitAux_tokens : ∀ (l cur : List Char), (∀ c ∈ cur, isPySpace c = false) →
    ∀ t ∈ splitAux cur l, t ≠ [] ∧ ∀ c ∈ t, isPySpace c = false := by
  intro l
  induction l with
  | nil =>
    intro cur hcur t ht
    rw [splitAux] at ht
    by_cases hc : cur = []
    · rw [if_pos hc] at ht; cases ht
    · rw [if_neg hc] at ht
      rcases List.mem_singleton.mp ht with rfl
      refine ⟨by simpa using hc, ?_⟩
      intro c hcm
      exact hcur c (List.mem_reverse.mp hcm)
  | cons a rest ih =>
    intro cur hcur t ht
    by_cases ha : isPySpace a
    · rw [splitAux, if_pos ha] at ht
      by_cases hc : cur = []
      · rw [if_pos hc] at ht
        exact ih [] (by intro c hcm; cases hcm) t ht
      · rw [if_neg hc] at ht
        rcases List.mem_cons.mp ht with rfl | ht2
        · refine ⟨by simpa using hc, ?_⟩
          intro c hcm
          exact hcur c (List.mem_reverse.mp hcm)
        · exact ih [] (by intro c hcm; cases hcm) t ht2
    · rw [splitAux, if_neg ha] at ht
      refine ih (a :: cur) ?_ t ht
      intro c hcm
      rcases List.mem_cons.mp hcm with rfl | hcm2
      · simpa using ha
      · exact hcur c hcm2

theorem splitAux_run : ∀ (r cur l : List Char), (∀ c ∈ r, isPySpace c = false) →
    splitAux cur (r ++ l) = splitAux (r.reverse ++ cur) l := by
  intro r
  induction r with
  | nil => intro cur l _; simp
  | cons c r' ih =>
    intro cur l hr
    have hc : isPySpace c = false := hr c (List.mem_cons_self _ _)
    show splitAux cur (c :: (r' ++ l)) = _
    rw [splitAux, if_neg (by simp [hc])]
    rw [ih (c :: cur) l (fun x hx => hr x (List.mem_cons_of_mem _ hx))]
    congr 1
    simp

theorem splitWs_joinSp : ∀ (ts : List (List Char)),
    (∀ t ∈ ts, t ≠ [] ∧ ∀ c ∈ t, isPySpace c = false) →
    splitWs (joinSp ts) = ts := by
  intro ts
  induction ts with
  | nil => intro _; rfl
  | cons t ts' ih =>
    intro hts
    obtain ⟨htne, htsp⟩ := hts t (List.mem_cons_self _ _)
    cases ts' with
    | nil =>
      show splitWs (joinSp [t]) = [t]
      unfold splitWs
      have : joinSp [t] = t := rfl
      rw [this]
      have h1 : splitAux [] (t ++ []) = splitAux (t.reverse ++ []) [] :=
        splitAux_run t [] [] htsp
      rw [List.append_nil] at h1
      rw [List.append_nil] at h1
      rw [h1, splitAux]
      rw [if_neg (by simpa using htne)]
      rw [List.reverse_reverse]
    | cons t' ts'' =>
      show splitWs (t ++ ' ' :: joinSp (t' :: ts'')) = t :: t' :: ts''
      unfold splitWs
      rw [splitAux_run t [] _ htsp, List.append_nil]
      rw [splitAux, if_pos (by decide)]
      rw [if_neg (by simpa using htne)]
      rw [List.reverse_reverse]
      have := ih (fun x hx => hts x (List.mem_cons_of_mem _ hx))
      unfold splitWs at this
      rw [this]

theorem string_mk_data (s : String) : (⟨s.data⟩ : String) = s := rfl

theorem pySplit_joinTokens (ts : List String)
    (h : ∀ t ∈ ts, t.data ≠ [] ∧ ∀ c ∈ t.data, isPySpace c = false) :
    pySplit (joinTokens ts) = ts := by
  unfold pySplit joinTokens
  have h1 : splitWs (joinSp (ts.map String.data)) = ts.map String.data := by
    apply splitWs_joinSp
    intro t ht
    rcases List.mem_map.mp ht with ⟨s, hs, rfl⟩
    exact h s hs
  show (splitWs (joinSp (ts.map String.data))).map (fun t => (⟨t⟩ : String)) = ts
  rw [h1, List.map_map]
  have : ((fun t => (⟨t⟩ : String)) ∘ String.data) = id := by
    funext s
    exact string_mk_data s
  rw [this, List.map_id]

theorem pySplit_tokens (s : String) :
    ∀ t ∈ pySplit s, t.data ≠ [] ∧ ∀ c ∈ t.data, isPySpace c = false := by
  intro t ht
  rcases List.mem_map.mp ht with ⟨tl, htl, rfl⟩
  exact splitAux_tokens s.data [] (by intro c hcm; cases hcm) tl htl

theorem pySplit_normalize_dutch (lower nfkd : String → String) (name : String) :
    pySplit (normalize_dutch_name lower nfkd name)
      = (pySplit (normalize_name lower nfkd name)).filter
          (fun t => !(decide (t ∈ DUTCH_PARTICLES))) := by
  unfold normalize_dutch_name
  apply pySplit_joinTokens
  intro t ht
  exact pySplit_tokens _ t (List.mem_filter.mp ht).1

/-- C4: particle stripping is complete for the configured particle set.
Every single-token particle is removed from the token list, and no
particle of the set, the two-token forms included, survives as a
contiguous run of tokens of the output: the first word of each two-token
particle is itself a member of the set, so it is filtered out. -/
theorem normalize_dutch_name_no_particles (lower nfkd : String → String)
    (name : String) :
    (∀ t ∈ pySplit (normalize_dutch_name lower nfkd name), t ∉ DUTCH_PARTICLES)
    ∧ ∀ p ∈ DUTCH_PARTICLES,
        ¬ (pySplit p <:+: pySplit (normalize_dutch_name lower nfkd name)) := by
  have h0 := pySplit_normalize_dutch lower nfkd name
  have h1 : ∀ t ∈ pySplit (normalize_dutch_name lower nfkd name),
      t ∉ DUTCH_PARTICLES := by
    intro t ht
    rw [h0] at ht
    have := (List.mem_filter.mp ht).2
    simpa using this
  refine ⟨h1, ?_⟩
  intro p hp hinf
  have hmem : ∀ (w : String), w ∈ pySplit p →
      w ∈ pySplit (normalize_dutch_name lower nfkd name) :=
    fun w hw => hinf.sublist.subset hw
  have hp8 : p = "van" ∨ p = "de" ∨ p = "den" ∨ p = "der" ∨ p = "ten" ∨
      p = "ter" ∨ p = "van de" ∨ p = "van den" := by
    simpa [DUTCH_PARTICLES] using hp
  rcases hp8 with rfl | rfl | rfl | rfl | rfl | rfl | rfl | rfl
  · exact (h1 "van" (hmem "van" (by decide))) (by decide)
  · exact (h1 "de" (hmem "de" (by decide))) (by decide)
  · exact (h1 "den" (hmem "den" (by decide))) (by decide)
  · exact (h1 "der" (hmem "der" (by decide))) (by decide)
  · exact (h1 "ten" (hmem "ten" (by decide))) (by decide)
  · exact (h1 "ter" (hmem "ter" (by decide))) (by decide)
  · exact (h1 "van" (hmem "van" (by decide))) (by decide)
  · exact (h1 "van" (hmem "van" (by decide))) (by decide)

/-- Witness for C4: on the concrete input of the claim (with the ASCII
model of str.lower and identity NFKD, enough for this ASCII input) the
output is jan berg, and in particular the two-token particle does not
survive. -/
theorem normalize_dutch_name_no_particles_witness :
    normalize_dutch_name asciiLower (fun s => s) "Jan van de Berg" = "jan berg"
    ∧ ¬ (pySplit "van de"
          <:+: pySplit (normalize_dutch_name asciiLower (fun s => s) "Jan van de Berg")) := by
  constructor
  · decide
  · exact (normalize_dutch_name_no_particles asciiLower (fun s => s)
      "Jan van de Berg").2 "van de" (by decide)

theorem mem_pairsUpper {n : Nat} {p : Nat × Nat} :
    p ∈ pairsUpper n ↔ p.1 < p.2 ∧ p.2 < n := by
  unfold pairsUpper
  rw [List.mem_flatMap]
  constructor
  · rintro ⟨i, hi, hp⟩
    rcases List.mem_filterMap.mp hp with ⟨j, hj, hij⟩
    by_cases h : i < j
    · rw [if_pos h] at hij
      cases hij
      exact ⟨h, List.mem_range.mp hj⟩
    · rw [if_neg h] at hij; cases hij
  · rintro ⟨h1, h2⟩
    refine ⟨p.1, List.mem_range.mpr (Nat.lt_trans h1 h2), ?_⟩
    apply List.mem_filterMap.mpr
    exact ⟨p.2, List.mem_range.mpr h2, by rw [if_pos h1]⟩

theorem get2d_zeros (n a b : Nat) : get2d (zeros2 n) a b = 0 := by
  simp only [get2d, zeros2, List.getD_eq_getElem?_getD, List.getElem?_replicate]
  by_cases h : a < n
  · rw [if_pos h, Option.getD_some, List.getElem?_replicate]
    by_cases h2 : b < n
    · rw [if_pos h2]; rfl
    · rw [if_neg h2]; rfl
  · rw [if_neg h, Option.getD_none]
    rfl

theorem length_set2d (m : List (List ℚ)) (i j : Nat) (v : ℚ) :
    (set2d m i j v).length = m.length := by
  simp [set2d]

theorem getD_set_row (m : List (List ℚ)) (i : Nat) (r : List ℚ) (hi : i < m.length) :
    (m.set i r).getD i [] = r := by
  rw [List.getD_eq_getElem?_getD, List.getElem?_set_self hi, Option.getD_some]

theorem getD_set_row_ne (m : List (List ℚ)) (i a : Nat) (r : List ℚ) (ha : a ≠ i) :
    (m.set i r).getD a [] = m.getD a [] := by
  rw [List.getD_eq_getElem?_getD, List.getElem?_set_ne (Ne.symm ha),
    ← List.getD_eq_getElem?_getD]

theorem getD_set_q (r : List ℚ) (j : Nat) (v : ℚ) (hj : j < r.length) :
    (r.set j v).getD j 0 = v := by
  rw [List.getD_eq_getElem?_getD, List.getElem?_set_self hj, Option.getD_some]

theorem getD_set_q_ne (r : List ℚ) (j b : Nat) (v : ℚ) (hb : b ≠ j) :
    (r.set j v).getD b 0 = r.getD b 0 := by
  rw [List.getD_eq_getElem?_getD, List.getElem?_set_ne (Ne.symm hb),
    ← List.getD_eq_getElem?_getD]

theorem get2d_set2d_eq {m : List (List ℚ)} {i j : Nat} (v : ℚ)
    (hi : i < m.length) (hj : j < (m.getD i []).length) :
    get2d (set2d m i j v) i j = v := by
  unfold get2d set2d
  rw [getD_set_row m i _ hi, getD_set_q _ _ _ hj]

theorem get2d_set2d_ne {m : List (List ℚ)} {i j : Nat} (v : ℚ) {a b : Nat}
    (h : ¬(a = i ∧ b = j)) :
    get2d (set2d m i j v) a b = get2d m a b := by
  unfold get2d set2d
  by_cases ha : a = i
  · subst ha
    have hb : b ≠ j := fun hbe => h ⟨rfl, hbe⟩
    by_cases hlen : a < m.length
    · rw [getD_set_row m a _ hlen, getD_set_q_ne _ _ _ _ hb]
    · rw [List.set_eq_of_length_le (Nat.le_of_not_lt hlen)]
  · rw [getD_set_row_ne m i a _ ha]

/-- Shape and value invariant maintained by the similarity-matrix loop:
n-by-n shape, symmetry, zero diagonal, and every entry either still zero
or a value returned by the scorer. -/
def MatInv (score : String → String → ℚ) (n : Nat) (m : List (List ℚ)) : Prop :=
  m.length = n ∧ (∀ r ∈ m, r.length = n) ∧
  (∀ a b, get2d m a b = get2d m b a) ∧
  (∀ a, get2d m a a = 0) ∧
  (∀ a b, get2d m a b = 0 ∨ ∃ x y, get2d m a b = score x y)

theorem MatInv_zeros (score : String → String → ℚ) (n : Nat) :
    MatInv score n (zeros2 n) := by
  refine ⟨by simp [zeros2], ?_, ?_, ?_, ?_⟩
  · intro r hr
    rcases (List.mem_replicate.mp hr).2 with rfl
    simp
  · intro a b; rw [get2d_zeros, get2d_zeros]
  · intro a; rw [get2d_zeros]
  · intro a b; exact Or.inl (get2d_zeros n a b)

theorem MatInv_step {score : String → String → ℚ} {n : Nat} {m : List (List ℚ)}
    (hm : MatInv score n m) {i j : Nat} (hij : i < j) (hjn : j < n)
    {v : ℚ} (hv : ∃ x y, v = score x y) :
    MatInv score n (set2d (set2d m i j v) j i v) := by
  obtain ⟨hlen, hrows, hsym, hdiag, hval⟩ := hm
  have hin : i < n := Nat.lt_trans hij hjn
  have hne : i ≠ j := Nat.ne_of_lt hij
  have hrowi : (m.getD i []).length = n := by
    rw [List.getD_eq_getElem?_getD,
      List.getElem?_eq_getElem (by rw [hlen]; exact hin), Option.getD_some]
    exact hrows _ (List.getElem_mem _)
  have hrowj : (m.getD j []).length = n := by
    rw [List.getD_eq_getElem?_getD,
      List.getElem?_eq_getElem (by rw [hlen]; exact hjn), Option.getD_some]
    exact hrows _ (List.getElem_mem _)
  have hrowj1 : ((set2d m i j v).getD j []).length = n := by
    unfold set2d
    rw [getD_set_row_ne m i j _ (Ne.symm hne)]
    exact hrowj
  have hlen1 : (set2d m i j v).length = n := by rw [length_set2d, hlen]
  have hget : ∀ a b, get2d (set2d (set2d m i j v) j i v) a b =
      if (a = i ∧ b = j) ∨ (a = j ∧ b = i) then v else get2d m a b := by
    intro a b
    by_cases h1 : a = j ∧ b = i
    · obtain ⟨rfl, rfl⟩ := h1
      rw [get2d_set2d_eq v (by rw [hlen1]; exact hjn) (by rw [hrowj1]; exact hin)]
      rw [if_pos (Or.inr ⟨rfl, rfl⟩)]
    · rw [get2d_set2d_ne v h1]
      by_cases h2 : a = i ∧ b = j
      · obtain ⟨rfl, rfl⟩ := h2
        rw [get2d_set2d_eq v (by rw [hlen]; exact hin) (by rw [hrowi]; exact hjn)]
        rw [if_pos (Or.inl ⟨rfl, rfl⟩)]
      · rw [get2d_set2d_ne v h2, if_neg ?_]
        intro hcon
        rcases hcon with hcon | hcon
        · exact h2 hcon
        · exact h1 hcon
  refine ⟨?_, ?_, ?_, ?_, ?_⟩
  · rw [length_set2d, hlen1]
  · intro r hr
    rcases List.mem_or_eq_of_mem_set hr with hr2 | rfl
    · rcases List.mem_or_eq_of_mem_set hr2 with hr3 | rfl
      · exact hrows r hr3
      · rw [List.length_set]; exact hrowi
    · rw [List.length_set]; exact hrowj1
  · intro a b
    rw [hget a b, hget b a]
    by_cases hab : (a = i ∧ b = j) ∨ (a = j ∧ b = i)
    · rw [if_pos hab, if_pos ?_]
      rcases hab with ⟨rfl, rfl⟩ | ⟨rfl, rfl⟩
      · exact Or.inr ⟨rfl, rfl⟩
      · exact Or.inl ⟨rfl, rfl⟩
    · rw [if_neg hab, if_neg ?_, hsym a b]
      intro hcon
      rcases hcon with ⟨rfl, rfl⟩ | ⟨rfl, rfl⟩
      · exact hab (Or.inr ⟨rfl, rfl⟩)
      · exact hab (Or.inl ⟨rfl, rfl⟩)
  · intro a
    rw [hget a a, if_neg ?_]
    · exact hdiag a
    · intro hcon
      rcases hcon with ⟨rfl, h⟩ | ⟨rfl, h⟩
      · exact hne h
      · exact hne h.symm
  · intro a b
    rw [hget a b]
    by_cases hab : (a = i ∧ b = j) ∨ (a = j ∧ b = i)
    · rw [if_pos hab]
      exact Or.inr hv
    · rw [if_neg hab]
      exact hval a b

theorem foldl_invariant {α β : Type} (P : β → Prop) (f : β → α → β)
    (l : List α) (init : β) (h0 : P init)
    (hstep : ∀ b a, a ∈ l → P b → P (f b a)) : P (l.foldl f init) := by
  induction l generalizing init with
  | nil => exact h0
  | cons a l' ih =>
    rw [List.foldl_cons]
    exact ih (f init a) (hstep init a (List.mem_cons_self _ _) h0)
      (fun b x hx hb => hstep b x (List.mem_cons_of_mem _ hx) hb)

theorem foldlM_ok {α β : Type} (f : β → α → Except String β) (g : β → α → β)
    (l : List α) (init : β) (h : ∀ m a, a ∈ l → f m a = .ok (g m a)) :
    l.foldlM f init = .ok (l.foldl g init) := by
  induction l generalizing init with
  | nil => rfl
  | cons a l' ih =>
    rw [List.foldlM_cons, h init a (List.mem_cons_self _ _)]
    show l'.foldlM f (g init a) = _
    rw [ih (g init a) (fun m x hx => h m x (List.mem_cons_of_mem _ hx))]
    rfl

theorem getD_mem_of_lt {α : Type} {l : List α} {k : Nat} (h : k < l.length) (d : α) :
    l.getD k d ∈ l := by
  rw [List.getD_eq_getElem?_getD, List.getElem?_eq_getElem h, Option.getD_some]
  exact List.getElem_mem _

/-- C5: for every list of names (strings), the similarity matrix is
symmetric, has entries within the scorer's range of 0 to 100, and has a
zero diagonal.  The hypothesis on the scorer records the range guarantee
of rapidfuzz partial_ratio. -/
theorem compute_similarity_matrix_props (lower nfkd : String → String)
    (score : String → String → ℚ)
    (hscore : ∀ a b, 0 ≤ score a b ∧ score a b ≤ 100)
    (names : List String) :
    ∃ m, compute_similarity_matrix lower nfkd score (names.map PyVal.pystr) = .ok m
      ∧ (∀ i j, get2d m i j = get2d m j i)
      ∧ (∀ i j, 0 ≤ get2d m i j ∧ get2d m i j ≤ 100)
      ∧ (∀ i, get2d m i i = 0) := by
  have hget : ∀ k, k < names.length →
      (names.map PyVal.pystr).getD k (.nonStr "") = .pystr (names.getD k "") := by
    intro k hk
    simp only [List.getD_eq_getElem?_getD, List.getElem?_map]
    rw [List.getElem?_eq_getElem hk]
    rfl
  have hlen : (names.map PyVal.pystr).length = names.length := List.length_map _ _
  refine ⟨(pairsUpper (names.map PyVal.pystr).length).foldl
      (fun m p => set2d (set2d m p.1 p.2
          (score (normalize_dutch_name lower nfkd (names.getD p.1 ""))
                 (normalize_dutch_name lower nfkd (names.getD p.2 ""))))
        p.2 p.1
          (score (normalize_dutch_name lower nfkd (names.getD p.1 ""))
                 (normalize_dutch_name lower nfkd (names.getD p.2 ""))))
      (zeros2 (names.map PyVal.pystr).length), ?_, ?_⟩
  · unfold compute_similarity_matrix
    apply foldlM_ok
    intro m p hp
    rcases mem_pairsUpper.mp hp with ⟨h1, h2⟩
    rw [hlen] at h2
    rw [hget p.1 (Nat.lt_trans h1 h2), hget p.2 h2]
    rfl
  · have hinv : MatInv score (names.map PyVal.pystr).length
        ((pairsUpper (names.map PyVal.pystr).length).foldl
          (fun m p => set2d (set2d m p.1 p.2
              (score (normalize_dutch_name lower nfkd (names.getD p.1 ""))
                     (normalize_dutch_name lower nfkd (names.getD p.2 ""))))
            p.2 p.1
              (score (normalize_dutch_name lower nfkd (names.getD p.1 ""))
                     (normalize_dutch_name lower nfkd (names.getD p.2 ""))))
          (zeros2 (names.map PyVal.pystr).length)) := by
      apply foldl_invariant
      · exact MatInv_zeros score _
      · intro m p hp hm
        rcases mem_pairsUpper.mp hp with ⟨h1, h2⟩
        exact MatInv_step hm h1 h2 ⟨_, _, rfl⟩
    obtain ⟨_, _, hsym, hdiag, hval⟩ := hinv
    refine ⟨hsym, ?_, hdiag⟩
    intro i j
    rcases hval i j with h | ⟨x, y, h⟩
    · rw [h]
      exact ⟨le_refl 0, by norm_num⟩
    · rw [h]
      exact ⟨(hscore x y).1, (hscore x y).2⟩

/-- Witness for C5 on a concrete name list and a concrete in-range
scorer. -/
theorem compute_similarity_matrix_props_witness :
    ∃ m, compute_similarity_matrix asciiLower (fun s => s) (fun _ _ => (50 : ℚ))
        (["Jan van der Berg", "Anna de Vries"].map PyVal.pystr) = .ok m
      ∧ (∀ i j, get2d m i j = get2d m j i)
      ∧ (∀ i j, 0 ≤ get2d m i j ∧ get2d m i j ≤ 100)
      ∧ (∀ i, get2d m i i = 0) :=
  compute_similarity_matrix_props asciiLower (fun s => s) (fun _ _ => (50 : ℚ))
    (fun _ _ => ⟨by norm_num, by norm_num⟩) ["Jan van der Berg", "Anna de Vries"]

theorem foldlM_err {α β : Type} (f : β → α → Except String β) (okStep : α → Bool)
    (hsucc : ∀ m a, okStep a = true → ∃ m2, f m a = .ok m2)
    (hfail : ∀ m a, okStep a = false → ∃ e, f m a = .error e) :
    ∀ (l : List α) (init : β),
      (∃ e, l.foldlM f init = .error e) ↔ ∃ a ∈ l, okStep a = false := by
  intro l
  induction l with
  | nil =>
    intro init
    constructor
    · rintro ⟨e, he⟩
      rw [List.foldlM_nil] at he
      cases he
    · rintro ⟨a, ha, _⟩
      cases ha
  | cons a l' ih =>
    intro init
    rw [List.foldlM_cons]
    by_cases hok : okStep a = true
    · obtain ⟨m2, hm2⟩ := hsucc init a hok
      rw [hm2]
      show (∃ e, l'.foldlM f m2 = .error e) ↔ _
      rw [ih m2]
      constructor
      · rintro ⟨x, hx, hxf⟩
        exact ⟨x, List.mem_cons_of_mem _ hx, hxf⟩
      · rintro ⟨x, hx, hxf⟩
        rcases List.mem_cons.mp hx with rfl | hx2
        · rw [hok] at hxf; cases hxf
        · exact ⟨x, hx2, hxf⟩
    · have hfalse : okStep a = false := by simpa using hok
      obtain ⟨e, he⟩ := hfail init a hfalse
      rw [he]
      constructor
      · intro _
        exact ⟨a, List.mem_cons_self _ _, hfalse⟩
      · intro _
        exact ⟨e, rfl⟩

/-- C8 (amended): the matrix computation fails on a non-string name if
and only if there are at least two records; validation is not performed
up front, so with fewer than two records the loop body never runs and a
zero matrix is returned even when the name value is not a string. -/
theorem compute_similarity_matrix_error_iff (lower nfkd : String → String)
    (score : String → String → ℚ) (names : List PyVal) :
    (∃ e, compute_similarity_matrix lower nfkd score names = .error e)
      ↔ 2 ≤ names.length ∧ ∃ v ∈ names, v.isStr = false := by
  unfold compute_similarity_matrix
  refine Iff.trans
    (foldlM_err _
      (fun p => (names.getD p.1 (.nonStr "")).isStr &&
                (names.getD p.2 (.nonStr "")).isStr)
      ?_ ?_ (pairsUpper names.length) (zeros2 names.length)) ?_
  · intro m p hok
    obtain ⟨h1, h2⟩ := Bool.and_eq_true _ _ |>.mp hok
    cases hv1 : names.getD p.1 (.nonStr "") with
    | pystr s1 =>
      cases hv2 : names.getD p.2 (.nonStr "") with
      | pystr s2 => exact ⟨_, rfl⟩
      | nonStr t => rw [hv2] at h2; cases h2
    | nonStr t => rw [hv1] at h1; cases h1
  · intro m p hbad
    cases hv1 : names.getD p.1 (.nonStr "") with
    | pystr s1 =>
      cases hv2 : names.getD p.2 (.nonStr "") with
      | pystr s2 =>
        have hbad2 : ((names.getD p.1 (.nonStr "")).isStr &&
            (names.getD p.2 (.nonStr "")).isStr) = false := hbad
        rw [hv1, hv2] at hbad2
        cases hbad2
      | nonStr t => exact ⟨"AttributeError", rfl⟩
    | nonStr t => exact ⟨"AttributeError", rfl⟩
  · constructor
    · rintro ⟨p, hp, hbad⟩
      rcases mem_pairsUpper.mp hp with ⟨h1, h2⟩
      refine ⟨by omega, ?_⟩
      by_cases hx : (names.getD p.1 (.nonStr "")).isStr = true
      · have hy : (names.getD p.2 (.nonStr "")).isStr = false := by
          rcases Bool.and_eq_false_iff.mp hbad with h | h
          · rw [hx] at h; cases h
          · exact h
        exact ⟨names.getD p.2 (.nonStr ""), getD_mem_of_lt h2 _, hy⟩
      · have hx2 : (names.getD p.1 (.nonStr "")).isStr = false := by
          simpa using hx
        exact ⟨names.getD p.1 (.nonStr ""),
          getD_mem_of_lt (Nat.lt_trans h1 h2) _, hx2⟩
    · rintro ⟨hn2, v, hv, hbad⟩
      obtain ⟨k, hk, rfl⟩ := List.mem_iff_getElem.mp hv
      have hgd : names.getD k (.nonStr "") = names.get ⟨k, hk⟩ := by
        rw [List.getD_eq_getElem?_getD, List.getElem?_eq_getElem hk, Option.getD_some]
        rw [List.get_eq_getElem]
      have hbad2 : (names.get ⟨k, hk⟩).isStr = false := hbad
      by_cases hk0 : k = 0
      · subst hk0
        refine ⟨(0, 1), mem_pairsUpper.mpr ⟨Nat.zero_lt_one, by omega⟩, ?_⟩
        show ((names.getD 0 (.nonStr "")).isStr && _) = false
        rw [hgd, hbad2]
        rfl
      · refine ⟨(0, k), mem_pairsUpper.mpr ⟨Nat.pos_of_ne_zero hk0, hk⟩, ?_⟩
        show (_ && (names.getD k (.nonStr "")).isStr) = false
        rw [hgd, hbad2]
        exact Bool.and_false _

/-- Counterexample to C8 as stated: a single record whose name is not a
string does not make the pipeline fail; the pair loop is empty, no
validation happens, and the one-by-one zero matrix is returned. -/
theorem compute_similarity_matrix_no_failfast :
    (PyVal.nonStr ("nan")).isStr = false
    ∧ compute_similarity_matrix (fun s => s) (fun s => s) (fun _ _ => (0 : ℚ))
        [PyVal.nonStr ("nan")] = .ok [[(0 : ℚ)]] := by
  constructor
  · rfl
  · rfl

theorem longestFirst_spec : ∀ (l : List String), l ≠ [] →
    ∃ (k : Nat) (hk : k < l.length),
      longestFirst l = some (l.get ⟨k, hk⟩)
      ∧ (∀ (m : Nat) (hm : m < l.length),
          (l.get ⟨m, hm⟩).length ≤ (l.get ⟨k, hk⟩).length)
      ∧ (∀ (m : Nat) (hm : m < l.length), m < k →
          (l.get ⟨m, hm⟩).length < (l.get ⟨k, hk⟩).length) := by
  intro l
  induction l with
  | nil => intro h; exact absurd rfl h
  | cons a l' ih =>
    intro _
    by_cases hl' : l' = []
    · subst hl'
      refine ⟨0, Nat.zero_lt_one, rfl, ?_, ?_⟩
      · intro m hm
        have hm0 : m = 0 := Nat.lt_one_iff.mp hm
        subst hm0
        exact Nat.le_refl _
      · intro m hm hmk
        exact absurd hmk (Nat.not_lt_zero m)
    · obtain ⟨k', hk', hsome, hmax, hstrict⟩ := ih hl'
      by_cases hgt : (l'.get ⟨k', hk'⟩).length > a.length
      · refine ⟨k' + 1, Nat.succ_lt_succ hk', ?_, ?_, ?_⟩
        · show (match longestFirst l' with
            | none => some a
            | some b => if b.length > a.length then some b else some a) = _
          rw [hsome]
          show (if (l'.get ⟨k', hk'⟩).length > a.length then _ else _) = _
          rw [if_pos hgt]
          rfl
        · intro m hm
          cases m with
          | zero => exact Nat.le_of_lt hgt
          | succ m' => exact hmax m' (Nat.lt_of_succ_lt_succ hm)
        · intro m hm hmk
          cases m with
          | zero => exact hgt
          | succ m' =>
            exact hstrict m' (Nat.lt_of_succ_lt_succ hm) (Nat.lt_of_succ_lt_succ hmk)
      · refine ⟨0, Nat.succ_pos _, ?_, ?_, ?_⟩
        · show (match longestFirst l' with
            | none => some a
            | some b => if b.length > a.length then some b else some a) = _
          rw [hsome]
          show (if (l'.get ⟨k', hk'⟩).length > a.length then _ else _) = _
          rw [if_neg hgt]
          rfl
        · intro m hm
          cases m with
          | zero => exact Nat.le_refl _
          | succ m' =>
            exact Nat.le_trans (hmax m' (Nat.lt_of_succ_lt_succ hm))
              (Nat.le_of_not_lt hgt)
        · intro m hm hmk
          exact absurd hmk (Nat.not_lt_zero m)

/-- C2: per cluster, the representative is the name-field value of
greatest character length, ties broken by the first occurrence in input
order, and every record of the cluster is annotated with that same
representative. -/
theorem find_representative_spec (rows : List (String × Nat)) (r : String × Nat)
    (hr : r ∈ rows) :
    ∃ (rep : String) (k : Nat) (hk : k < (clusterNames rows r.2).length),
      (clusterNames rows r.2).get ⟨k, hk⟩ = rep
      ∧ (∀ (m : Nat) (hm : m < (clusterNames rows r.2).length),
          ((clusterNames rows r.2).get ⟨m, hm⟩).length ≤ rep.length)
      ∧ (∀ (m : Nat) (hm : m < (clusterNames rows r.2).length), m < k →
          ((clusterNames rows r.2).get ⟨m, hm⟩).length < rep.length)
      ∧ ∀ (i : Nat) (ri : String × Nat), rows[i]? = some ri → ri.2 = r.2 →
          (find_representative rows)[i]? = some (ri.1, ri.2, rep) := by
  have hmem : r.1 ∈ clusterNames rows r.2 := by
    unfold clusterNames
    apply List.mem_map.mpr
    refine ⟨r, ?_, rfl⟩
    apply List.mem_filter.mpr
    exact ⟨hr, by simp⟩
  have hne : clusterNames rows r.2 ≠ [] := List.ne_nil_of_mem hmem
  obtain ⟨k, hk, hsome, hmax, hstrict⟩ := longestFirst_spec _ hne
  refine ⟨(clusterNames rows r.2).get ⟨k, hk⟩, k, hk, rfl, hmax, hstrict, ?_⟩
  intro i ri hri hcl
  unfold find_representative
  rw [List.getElem?_map, hri]
  show some (ri.1, ri.2, (longestFirst (clusterNames rows ri.2)).getD "") = _
  rw [hcl, hsome]
  rfl

/-- Witness for C2 on the concrete cluster of the specification
scenario: the longest name is chosen for cluster 1 and annotates both of
its rows. -/
theorem find_representative_spec_witness :
    ∃ (rep : String) (k : Nat)
      (hk : k < (clusterNames
        [("Jan van der Berg", 1), ("J. van der Berg", 1), ("Anna de Vries", 2)]
        1).length),
      (clusterNames
        [("Jan van der Berg", 1), ("J. van der Berg", 1), ("Anna de Vries", 2)]
        1).get ⟨k, hk⟩ = rep
      ∧ (∀ (m : Nat) (hm : m < (clusterNames
          [("Jan van der Berg", 1), ("J. van der Berg", 1), ("Anna de Vries", 2)]
          1).length),
          ((clusterNames
            [("Jan van der Berg", 1), ("J. van der Berg", 1), ("Anna de Vries", 2)]
            1).get ⟨m, hm⟩).length ≤ rep.length)
      ∧ (∀ (m : Nat) (hm : m < (clusterNames
          [("Jan van der Berg", 1), ("J. van der Berg", 1), ("Anna de Vries", 2)]
          1).length), m < k →
          ((clusterNames
            [("Jan van der Berg", 1), ("J. van der Berg", 1), ("Anna de Vries", 2)]
            1).get ⟨m, hm⟩).length < rep.length)
      ∧ ∀ (i : Nat) (ri : String × Nat),
          ([("Jan van der Berg", 1), ("J. van der Berg", 1), ("Anna de Vries", 2)]
            : List (String × Nat))[i]? = some ri → ri.2 = 1 →
          (find_representative
            [("Jan van der Berg", 1), ("J. van der Berg", 1), ("Anna de Vries", 2)])[i]?
            = some (ri.1, ri.2, rep) :=
  find_representative_spec
    [("Jan van der Berg", 1), ("J. van der Berg", 1), ("Anna de Vries", 2)]
    ("Jan van der Berg", 1) (by simp)

theorem mem_uniqueFirstAux {α : Type} [DecidableEq α] :
    ∀ (l seen : List α) (x : α),
      x ∈ uniqueFirstAux seen l ↔ x ∈ l ∧ x ∉ seen := by
  intro l
  induction l with
  | nil => intro seen x; simp [uniqueFirstAux]
  | cons a l' ih =>
    intro seen x
    by_cases ha : a ∈ seen
    · rw [uniqueFirstAux, if_pos ha, ih]
      constructor
      · rintro ⟨h1, h2⟩
        exact ⟨List.mem_cons_of_mem _ h1, h2⟩
      · rintro ⟨h1, h2⟩
        rcases List.mem_cons.mp h1 with rfl | h3
        · exact absurd ha h2
        · exact ⟨h3, h2⟩
    · rw [uniqueFirstAux, if_neg ha]
      constructor
      · intro h
        rcases List.mem_cons.mp h with rfl | h2
        · exact ⟨List.mem_cons_self _ _, ha⟩
        · obtain ⟨h3, h4⟩ := (ih (a :: seen) x).mp h2
          exact ⟨List.mem_cons_of_mem _ h3,
            fun hx => h4 (List.mem_cons_of_mem _ hx)⟩
      · rintro ⟨h1, h2⟩
        rcases List.mem_cons.mp h1 with rfl | h3
        · exact List.mem_cons_self _ _
        · by_cases hxa : x = a
          · subst hxa; exact List.mem_cons_self _ _
          · refine List.mem_cons_of_mem _ ((ih (a :: seen) x).mpr ⟨h3, ?_⟩)
            intro hx
            rcases List.mem_cons.mp hx with h5 | h5
            · exact hxa h5
            · exact h2 h5

theorem mem_uniqueFirst {α : Type} [DecidableEq α] (l : List α) (x : α) :
    x ∈ uniqueFirst l ↔ x ∈ l := by
  rw [uniqueFirst, mem_uniqueFirstAux]
  simp

theorem nodup_uniqueFirstAux {α : Type} [DecidableEq α] :
    ∀ (l seen : List α), (uniqueFirstAux seen l).Nodup := by
  intro l
  induction l with
  | nil => intro seen; exact List.nodup_nil
  | cons a l' ih =>
    intro seen
    by_cases ha : a ∈ seen
    · rw [uniqueFirstAux, if_pos ha]
      exact ih seen
    · rw [uniqueFirstAux, if_neg ha]
      refine List.nodup_cons.mpr ⟨?_, ih (a :: seen)⟩
      intro hmem
      exact ((mem_uniqueFirstAux l' (a :: seen) a).mp hmem).2 (List.mem_cons_self _ _)

theorem nodup_uniqueFirst {α : Type} [DecidableEq α] (l : List α) :
    (uniqueFirst l).Nodup :=
  nodup_uniqueFirstAux l []

theorem sortedKeys_sorted (df : DFrame) (ccol : String) :
    List.Sorted (· ≤ ·) (sortedKeys df ccol) :=
  List.sorted_insertionSort _ _

theorem sortedKeys_nodup (df : DFrame) (ccol : String) :
    (sortedKeys df ccol).Nodup :=
  (List.perm_insertionSort _ _).nodup_iff.mpr (nodup_uniqueFirst _)

/-- C10: asking the validator to validate the name column fails with the
assertion error, and no report is produced. -/
theorem validate_rejects_name (df : DFrame) (ccol : String)
    (listCols filterCols : List String) (h : "name" ∈ filterCols) :
    validate_cluster_attributes df ccol listCols filterCols
      = .error ("AssertionError: The column name should not be among filter_cols.") := by
  unfold validate_cluster_attributes
  rw [if_pos h]

/-- Witness for C10 on a concrete frame and configuration. -/
theorem validate_rejects_name_witness :
    validate_cluster_attributes exOrderDf "cluster_id" [] ["a", "name"]
      = .error ("AssertionError: The column name should not be among filter_cols.") :=
  validate_rejects_name exOrderDf "cluster_id" [] ["a", "name"] (by simp)

theorem cellCheck_fields {df : DFrame} {ccol : String}
    {listCols filterCols : List String} {c : Nat} {col : String}
    {r : ConflictRecord}
    (h : cellCheck df ccol listCols filterCols c col = some r) :
    r.cluster = c ∧ r.attr = col := by
  simp only [cellCheck] at h
  split_ifs at h
  · cases h; exact ⟨rfl, rfl⟩
  · cases h; exact ⟨rfl, rfl⟩

theorem mem_segment {df : DFrame} {ccol : String}
    {listCols filterCols : List String} {c : Nat} {r : ConflictRecord}
    (h : r ∈ df.cols.filterMap (cellCheck df ccol listCols filterCols c)) :
    r.cluster = c := by
  rcases List.mem_filterMap.mp h with ⟨col, _, hcc⟩
  exact (cellCheck_fields hcc).1

theorem pairwise_le_of_all_eq {l : List Nat} {c : Nat} (h : ∀ x ∈ l, x = c) :
    l.Pairwise (· ≤ ·) := by
  induction l with
  | nil => exact List.Pairwise.nil
  | cons a l' ih =>
    refine List.pairwise_cons.mpr ⟨?_, ih (fun x hx => h x (List.mem_cons_of_mem _ hx))⟩
    intro y hy
    rw [h a (List.mem_cons_self _ _), h y (List.mem_cons_of_mem _ hy)]

theorem pairwise_le_clusters (keys : List Nat) (seg : Nat → List ConflictRecord)
    (hseg : ∀ c r, r ∈ seg c → r.cluster = c)
    (hsorted : List.Sorted (· ≤ ·) keys) :
    List.Sorted (· ≤ ·) ((keys.flatMap seg).map (fun r => r.cluster)) := by
  induction keys with
  | nil => exact List.sorted_nil
  | cons k keys' ih =>
    have hs' : List.Sorted (· ≤ ·) keys' := hsorted.of_cons
    have hle : ∀ b ∈ keys', k ≤ b := List.rel_of_sorted_cons hsorted
    show List.Sorted (· ≤ ·) ((seg k ++ keys'.flatMap seg).map (fun r => r.cluster))
    rw [List.map_append]
    apply List.pairwise_append.mpr
    refine ⟨?_, ih hs', ?_⟩
    · apply pairwise_le_of_all_eq
      intro x hx
      rcases List.mem_map.mp hx with ⟨r, hr, rfl⟩
      exact hseg k r hr
    · intro x hx y hy
      rcases List.mem_map.mp hx with ⟨r, hr, rfl⟩
      rcases List.mem_map.mp hy with ⟨r2, hr2, rfl⟩
      rcases List.mem_flatMap.mp hr2 with ⟨c2, hc2, hr2s⟩
      rw [hseg k r hr, hseg c2 r2 hr2s]
      exact hle c2 hc2

theorem segment_attrs_sublist (cols : List String)
    (f : String → Option ConflictRecord)
    (hf : ∀ cl r, f cl = some r → r.attr = cl) :
    ((cols.filterMap f).map (fun r => r.attr)).Sublist cols := by
  induction cols with
  | nil => exact List.nil_sublist _
  | cons cl cols' ih =>
    cases hcl : f cl with
    | none =>
      rw [List.filterMap_cons_none hcl]
      exact ih.cons cl
    | some r =>
      rw [List.filterMap_cons_some hcl, List.map_cons, hf cl r hcl]
      exact ih.cons₂ cl

theorem filter_flatMap_cluster (keys : List Nat) (seg : Nat → List ConflictRecord)
    (hseg : ∀ c r, r ∈ seg c → r.cluster = c) (hnd : keys.Nodup) (c : Nat) :
    (keys.flatMap seg).filter (fun r => decide (r.cluster = c))
      = if c ∈ keys then seg c else [] := by
  induction keys with
  | nil => simp
  | cons k keys' ih =>
    obtain ⟨hknotin, hnd'⟩ := List.nodup_cons.mp hnd
    show (seg k ++ keys'.flatMap seg).filter _ = _
    rw [List.filter_append, ih hnd']
    by_cases hkc : k = c
    · subst hkc
      rw [List.filter_eq_self.mpr ?_, if_neg hknotin, List.append_nil,
        if_pos (List.mem_cons_self _ _)]
      intro r hr
      simp [hseg k r hr]
    · have hkz : (seg k).filter (fun r => decide (r.cluster = c)) = [] := by
        apply List.filter_eq_nil_iff.mpr
        intro r hr
        simp [hseg k r hr, hkc]
      rw [hkz, List.nil_append]
      by_cases hc : c ∈ keys'
      · rw [if_pos hc, if_pos (List.mem_cons_of_mem _ hc)]
      · rw [if_neg hc, if_neg ?_]
        intro hmem
        rcases List.mem_cons.mp hmem with h | h
        · exact hkc h.symm
        · exact hc h

/-- C9 (amended): the conflict report is grouped by cluster id in
ascending cluster-id order (pandas groupby iterates keys sorted, not in
first-encounter order), and within one cluster the conflicts follow the
order of the frame's columns (not the order the caller supplied the
validated attributes). -/
theorem validate_report_order (df : DFrame) (ccol : String)
    (listCols filterCols : List String) (report : List ConflictRecord)
    (hok : validate_cluster_attributes df ccol listCols filterCols = .ok report) :
    List.Sorted (· ≤ ·) (report.map (fun r => r.cluster))
    ∧ ∀ c, ((report.filter (fun r => decide (r.cluster = c))).map
        (fun r => r.attr)).Sublist df.cols := by
  unfold validate_cluster_attributes at hok
  by_cases hname : "name" ∈ filterCols
  · rw [if_pos hname] at hok
    cases hok
  · rw [if_neg hname] at hok
    cases hok
    constructor
    · exact pairwise_le_clusters _ _ (fun c r hr => mem_segment hr)
        (sortedKeys_sorted df ccol)
    · intro c
      rw [filter_flatMap_cluster _ _ (fun c2 r hr => mem_segment hr)
        (sortedKeys_nodup df ccol) c]
      by_cases hc : c ∈ sortedKeys df ccol
      · rw [if_pos hc]
        exact segment_attrs_sublist _ _ (fun cl r h => (cellCheck_fields h).2)
      · rw [if_neg hc]
        exact List.nil_sublist _

/-- Witness for the amended C9 on the concrete counterexample frame. -/
theorem validate_report_order_witness :
    List.Sorted (· ≤ ·)
      (([(⟨1, "a", [.str "u", .str "v"]⟩ : ConflictRecord),
         ⟨2, "a", [.str "x", .str "y"]⟩]).map (fun r => r.cluster))
    ∧ ∀ c, ((([(⟨1, "a", [.str "u", .str "v"]⟩ : ConflictRecord),
         ⟨2, "a", [.str "x", .str "y"]⟩]).filter
          (fun r => decide (r.cluster = c))).map (fun r => r.attr)).Sublist
        exOrderDf.cols :=
  validate_report_order exOrderDf "cluster_id" [] ["a"] _ rfl

/-- Counterexample to C9 as stated: on exOrderDf the clusters are first
encountered in the order 2, 1, but the report lists cluster 1 first
(groupby sorts its keys). -/
theorem validate_order_counterexample :
    validate_cluster_attributes exOrderDf "cluster_id" [] ["a"]
        = .ok [⟨1, "a", [.str "u", .str "v"]⟩, ⟨2, "a", [.str "x", .str "y"]⟩]
    ∧ uniqueFirst (exOrderDf.rows.filterMap (rowKey exOrderDf "cluster_id")) = [2, 1] := by
  exact ⟨rfl, rfl⟩

theorem countP_segment_ne {df : DFrame} {ccol : String}
    {listCols filterCols : List String} {c c2 : Nat} {col : String}
    (hne : c2 ≠ c) :
    (df.cols.filterMap (cellCheck df ccol listCols filterCols c2)).countP
      (fun r => decide (r.cluster = c ∧ r.attr = col)) = 0 := by
  apply List.countP_eq_zero.mpr
  intro r hr
  have := mem_segment hr
  simp only [decide_eq_true_eq]
  intro hcon
  exact hne (this ▸ hcon.1)

theorem countP_flatMap_zero {p : ConflictRecord → Bool} :
    ∀ (keys : List Nat) (seg : Nat → List ConflictRecord),
      (∀ k ∈ keys, (seg k).countP p = 0) →
      ((keys.flatMap seg).countP p) = 0 := by
  intro keys
  induction keys with
  | nil => intro seg _; rfl
  | cons k keys' ih =>
    intro seg h
    show ((seg k ++ keys'.flatMap seg).countP p) = 0
    rw [List.countP_append, h k (List.mem_cons_self _ _),
      ih seg (fun x hx => h x (List.mem_cons_of_mem _ hx))]

theorem countP_flatMap_keys {p : ConflictRecord → Bool}
    (keys : List Nat) (seg : Nat → List ConflictRecord) (c : Nat)
    (hnd : keys.Nodup) (hc : c ∈ keys)
    (hzero : ∀ k, k ≠ c → (seg k).countP p = 0) :
    ((keys.flatMap seg).countP p) = (seg c).countP p := by
  induction keys with
  | nil => cases hc
  | cons k keys' ih =>
    obtain ⟨hknotin, hnd'⟩ := List.nodup_cons.mp hnd
    show ((seg k ++ keys'.flatMap seg).countP p) = _
    rw [List.countP_append]
    by_cases hkc : k = c
    · subst hkc
      rw [countP_flatMap_zero keys' seg
        (fun x hx => hzero x (fun hxe => hknotin (hxe ▸ hx))), Nat.add_zero]
    · have hck : c ∈ keys' := by
        rcases List.mem_cons.mp hc with h | h
        · exact absurd h.symm hkc
        · exact h
      rw [hzero k hkc, ih hnd' hck, Nat.zero_add]

theorem countP_filterMap_self (cols : List String)
    (f : String → Option ConflictRecord) {c : Nat} {col : String}
    (hf : ∀ cl r, f cl = some r → r.cluster = c ∧ r.attr = cl)
    (hnd : cols.Nodup) (hcol : col ∈ cols) :
    (cols.filterMap f).countP (fun r => decide (r.cluster = c ∧ r.attr = col))
      = (match f col with | some _ => 1 | none => 0) := by
  induction cols with
  | nil => cases hcol
  | cons cl cols' ih =>
    obtain ⟨hclnotin, hnd'⟩ := List.nodup_cons.mp hnd
    by_cases hcc : cl = col
    · subst hcc
      have htail : (cols'.filterMap f).countP
          (fun r => decide (r.cluster = c ∧ r.attr = cl)) = 0 := by
        apply List.countP_eq_zero.mpr
        intro r hr
        rcases List.mem_filterMap.mp hr with ⟨x, hx, hfx⟩
        have hattr := (hf x r hfx).2
        simp only [decide_eq_true_eq]
        intro hcon
        apply hclnotin
        rw [← hcon.2, hattr]
        exact hx
      cases hfc : f cl with
      | some r =>
        rw [List.filterMap_cons_some hfc, List.countP_cons, htail]
        have hp : decide (r.cluster = c ∧ r.attr = cl) = true := by
          simp [(hf cl r hfc).1, (hf cl r hfc).2]
        rw [hp]
        rfl
      | none =>
        rw [List.filterMap_cons_none hfc, htail]
    · have hcol' : col ∈ cols' := by
        rcases List.mem_cons.mp hcol with h | h
        · exact absurd h.symm hcc
        · exact h
      cases hfc : f cl with
      | some r =>
        rw [List.filterMap_cons_some hfc, List.countP_cons, ih hnd' hcol']
        have hp : decide (r.cluster = c ∧ r.attr = col) = false := by
          simp only [decide_eq_false_iff_not]
          intro hcon
          exact hcc (((hf cl r hfc).2).symm.trans hcon.2)
        rw [hp]
        simp
      | none =>
        rw [List.filterMap_cons_none hfc, ih hnd' hcol']

theorem one_lt_uniqueFirst_iff {α : Type} [DecidableEq α] (l : List α) :
    1 < (uniqueFirst l).length ↔ ∃ x ∈ l, ∃ y ∈ l, x ≠ y := by
  constructor
  · intro h
    cases hu : uniqueFirst l with
    | nil => rw [hu] at h; cases h
    | cons a t =>
      cases t with
      | nil => rw [hu] at h; simp at h
      | cons b t2 =>
        have hnd := nodup_uniqueFirst l
        rw [hu] at hnd
        have hab : a ≠ b := by
          intro he
          exact (List.nodup_cons.mp hnd).1 (he ▸ List.mem_cons_self _ _)
        have ha : a ∈ l := (mem_uniqueFirst l a).mp (hu ▸ List.mem_cons_self _ _)
        have hb : b ∈ l := (mem_uniqueFirst l b).mp
          (hu ▸ List.mem_cons_of_mem _ (List.mem_cons_self _ _))
        exact ⟨a, ha, b, hb, hab⟩
  · rintro ⟨x, hx, y, hy, hxy⟩
    have hxu : x ∈ uniqueFirst l := (mem_uniqueFirst l x).mpr hx
    have hyu : y ∈ uniqueFirst l := (mem_uniqueFirst l y).mpr hy
    cases hu : uniqueFirst l with
    | nil => rw [hu] at hxu; cases hxu
    | cons a t =>
      cases t with
      | nil =>
        rw [hu] at hxu hyu
        simp only [List.mem_singleton] at hxu hyu
        exact absurd (hxu.trans hyu.symm) hxy
      | cons b t2 =>
        simp only [List.length_cons]
        omega

theorem mem_foldl_filter : ∀ (rest : List (List String)) (s : List String) (x : String),
    x ∈ rest.foldl (fun acc t => acc.filter (fun z => decide (z ∈ t))) s
      ↔ x ∈ s ∧ ∀ t ∈ rest, x ∈ t := by
  intro rest
  induction rest with
  | nil => intro s x; simp
  | cons t rest' ih =>
    intro s x
    rw [List.foldl_cons, ih]
    constructor
    · rintro ⟨h1, h2⟩
      obtain ⟨hs, ht⟩ := List.mem_filter.mp h1
      refine ⟨hs, ?_⟩
      intro t2 ht2
      rcases List.mem_cons.mp ht2 with rfl | ht3
      · exact of_decide_eq_true ht
      · exact h2 t2 ht3
    · rintro ⟨hs, hall⟩
      refine ⟨List.mem_filter.mpr ⟨hs, ?_⟩, ?_⟩
      · exact decide_eq_true (hall t (List.mem_cons_self _ _))
      · intro t2 ht2
        exact hall t2 (List.mem_cons_of_mem _ ht2)

theorem mem_interAll {sets : List (List String)} {x : String} (hne : sets ≠ []) :
    x ∈ interAll sets ↔ ∀ t ∈ sets, x ∈ t := by
  cases sets with
  | nil => exact absurd rfl hne
  | cons s rest =>
    show x ∈ rest.foldl _ s ↔ _
    rw [mem_foldl_filter]
    constructor
    · rintro ⟨h1, h2⟩
      intro t ht
      rcases List.mem_cons.mp ht with rfl | ht2
      · exact h1
      · exact h2 t ht2
    · intro h
      exact ⟨h s (List.mem_cons_self _ _), fun t ht => h t (List.mem_cons_of_mem _ ht)⟩

theorem interAll_eq_nil_iff {sets : List (List String)} (hne : sets ≠ []) :
    interAll sets = [] ↔ ¬ ∃ x, ∀ t ∈ sets, x ∈ t := by
  rw [List.eq_nil_iff_forall_not_mem]
  constructor
  · rintro h ⟨x, hx⟩
    exact h x ((mem_interAll hne).mpr hx)
  · intro h x hx
    exact h ⟨x, (mem_interAll hne).mp hx⟩

/-- C1: per cluster and validated attribute, the validator reports a
conflict for a scalar attribute exactly when more than one distinct
non-null value occurs (payload: the distinct values in first-seen
order), reports a conflict for a list-valued attribute exactly when the
non-null value sets share no element (payload: each record's set), and
reports nothing when every value of the attribute is null in the
cluster. -/
theorem validate_conflicts_spec (df : DFrame) (ccol : String)
    (listCols filterCols : List String) (report : List ConflictRecord)
    (hok : validate_cluster_attributes df ccol listCols filterCols = .ok report)
    (hnd : df.cols.Nodup)
    (c : Nat) (hc : c ∈ sortedKeys df ccol)
    (col : String) (hcol : col ∈ df.cols) (hfil : col ∈ filterCols) :
    (nonNullAt df ccol c col = [] →
      report.countP (fun r => decide (r.cluster = c ∧ r.attr = col)) = 0)
    ∧ (col ∉ listCols →
        ((∃ x ∈ nonNullAt df ccol c col, ∃ y ∈ nonNullAt df ccol c col, x ≠ y) →
          report.countP (fun r => decide (r.cluster = c ∧ r.attr = col)) = 1
          ∧ (⟨c, col, uniqueFirst (nonNullAt df ccol c col)⟩ : ConflictRecord) ∈ report)
        ∧ (¬(∃ x ∈ nonNullAt df ccol c col, ∃ y ∈ nonNullAt df ccol c col, x ≠ y) →
          report.countP (fun r => decide (r.cluster = c ∧ r.attr = col)) = 0))
    ∧ (col ∈ listCols → nonNullAt df ccol c col ≠ [] →
        ((¬ ∃ x, ∀ v ∈ nonNullAt df ccol c col, x ∈ pySet v) →
          report.countP (fun r => decide (r.cluster = c ∧ r.attr = col)) = 1
          ∧ (⟨c, col, ((nonNullAt df ccol c col).map pySet).map Val.lst⟩
              : ConflictRecord) ∈ report)
        ∧ ((∃ x, ∀ v ∈ nonNullAt df ccol c col, x ∈ pySet v) →
          report.countP (fun r => decide (r.cluster = c ∧ r.attr = col)) = 0)) := by
  unfold validate_cluster_attributes at hok
  by_cases hname : "name" ∈ filterCols
  · rw [if_pos hname] at hok
    cases hok
  · rw [if_neg hname] at hok
    cases hok
    have hfields : ∀ cl r, cellCheck df ccol listCols filterCols c cl = some r →
        r.cluster = c ∧ r.attr = cl := fun cl r h => cellCheck_fields h
    have hcount : ((sortedKeys df ccol).flatMap
          (fun k => df.cols.filterMap (cellCheck df ccol listCols filterCols k))).countP
          (fun r => decide (r.cluster = c ∧ r.attr = col))
        = (match cellCheck df ccol listCols filterCols c col with
           | some _ => 1 | none => 0) := by
      rw [countP_flatMap_keys _ _ c (sortedKeys_nodup df ccol) hc
        (fun k hk => countP_segment_ne hk)]
      exact countP_filterMap_self df.cols _ hfields hnd hcol
    have hmem : ∀ rec, cellCheck df ccol listCols filterCols c col = some rec →
        rec ∈ (sortedKeys df ccol).flatMap
          (fun k => df.cols.filterMap (cellCheck df ccol listCols filterCols k)) := by
      intro rec hrec
      exact List.mem_flatMap.mpr ⟨c, hc, List.mem_filterMap.mpr ⟨col, hcol, hrec⟩⟩
    refine ⟨?_, ?_, ?_⟩
    · intro hval
      rw [hcount]
      have hcc : cellCheck df ccol listCols filterCols c col = none := by
        simp only [cellCheck]
        rw [if_pos hfil, if_pos hval]
      rw [hcc]
    · intro hnl
      constructor
      · intro hpair
        have hvne : nonNullAt df ccol c col ≠ [] := by
          rcases hpair with ⟨x, hx, _⟩
          exact List.ne_nil_of_mem hx
        have hlen : 1 < (uniqueFirst (nonNullAt df ccol c col)).length :=
          (one_lt_uniqueFirst_iff _).mpr hpair
        have hcc : cellCheck df ccol listCols filterCols c col
            = some ⟨c, col, uniqueFirst (nonNullAt df ccol c col)⟩ := by
          simp only [cellCheck]
          rw [if_pos hfil, if_neg hvne, if_neg hnl, if_pos hlen]
        refine ⟨?_, hmem _ hcc⟩
        rw [hcount, hcc]
      · intro hnopair
        have hlen : ¬ 1 < (uniqueFirst (nonNullAt df ccol c col)).length := by
          intro h
          exact hnopair ((one_lt_uniqueFirst_iff _).mp h)
        rw [hcount]
        by_cases hvne : nonNullAt df ccol c col = []
        · have hcc : cellCheck df ccol listCols filterCols c col = none := by
            simp only [cellCheck]
            rw [if_pos hfil, if_pos hvne]
          rw [hcc]
        · have hcc : cellCheck df ccol listCols filterCols c col = none := by
            simp only [cellCheck]
            rw [if_pos hfil, if_neg hvne, if_neg hnl, if_neg hlen]
          rw [hcc]
    · intro hl hvne
      have hmapne : (nonNullAt df ccol c col).map pySet ≠ [] := by
        intro h
        exact hvne (List.map_eq_nil_iff.mp h)
      have hsets : ∀ x : String,
          (∀ t ∈ (nonNullAt df ccol c col).map pySet, x ∈ t)
            ↔ (∀ v ∈ nonNullAt df ccol c col, x ∈ pySet v) := by
        intro x
        constructor
        · intro h v hv
          exact h _ (List.mem_map_of_mem _ hv)
        · intro h t ht
          rcases List.mem_map.mp ht with ⟨v, hv, rfl⟩
          exact h v hv
      have hinter : interAll ((nonNullAt df ccol c col).map pySet) = []
          ↔ ¬ ∃ x, ∀ v ∈ nonNullAt df ccol c col, x ∈ pySet v := by
        rw [interAll_eq_nil_iff hmapne]
        constructor
        · rintro h ⟨x, hx⟩
          exact h ⟨x, (hsets x).mpr hx⟩
        · rintro h ⟨x, hx⟩
          exact h ⟨x, (hsets x).mp hx⟩
      constructor
      · intro hnocommon
        have hie : interAll ((nonNullAt df ccol c col).map pySet) = [] :=
          hinter.mpr hnocommon
        have hcc : cellCheck df ccol listCols filterCols c col
            = some ⟨c, col, ((nonNullAt df ccol c col).map pySet).map Val.lst⟩ := by
          simp only [cellCheck]
          rw [if_pos hfil, if_neg hvne, if_pos hl, if_pos hie]
        refine ⟨?_, hmem _ hcc⟩
        rw [hcount, hcc]
      · intro hcommon
        have hie : interAll ((nonNullAt df ccol c col).map pySet) ≠ [] :=
          fun h => (hinter.mp h) hcommon
        have hcc : cellCheck df ccol listCols filterCols c col = none := by
          simp only [cellCheck]
          rw [if_pos hfil, if_neg hvne, if_pos hl, if_neg hie]
        rw [hcount, hcc]

/-- Witness for C1 on a concrete two-row cluster: the scalar nationality
column conflicts (payload Dutch, Belgian in first-seen order) while the
list-valued occupation column, whose sets share the element teacher,
produces no conflict record. -/
theorem validate_conflicts_spec_witness :
    ∃ report,
      validate_cluster_attributes exValDf "cluster_id" ["occupation"]
          ["nationality", "occupation"] = .ok report
      ∧ report.countP
          (fun r => decide (r.cluster = 1 ∧ r.attr = "nationality")) = 1
      ∧ (⟨1, "nationality",
          uniqueFirst (nonNullAt exValDf "cluster_id" 1 "nationality")⟩
            : ConflictRecord) ∈ report
      ∧ report.countP
          (fun r => decide (r.cluster = 1 ∧ r.attr = "occupation")) = 0 := by
  refine ⟨_, rfl, ?_, ?_, ?_⟩
  · exact (((validate_conflicts_spec exValDf "cluster_id" ["occupation"]
      ["nationality", "occupation"] _ rfl (by decide) 1 (by decide)
      "nationality" (by decide) (by decide)).2.1 (by decide)).1 (by decide)).1
  · exact (((validate_conflicts_spec exValDf "cluster_id" ["occupation"]
      ["nationality", "occupation"] _ rfl (by decide) 1 (by decide)
      "nationality" (by decide) (by decide)).2.1 (by decide)).1 (by decide)).2
  · exact (validate_conflicts_spec exValDf "cluster_id" ["occupation"]
      ["nationality", "occupation"] _ rfl (by decide) 1 (by decide)
      "occupation" (by decide) (by decide)).2.2 (by decide) (by decide)
      |>.2 ⟨"teacher", by decide⟩

/-- C7 (amended): with fewer than 2 records no degenerate-case handling
exists; the clusterer hands an empty condensed distance list to linkage,
which fails. -/
theorem hierarchical_clustering_degenerate (sim : List (List ℚ)) (t : ℚ)
    (h : sim.length < 2) :
    hierarchical_clustering sim t
      = .error ("ValueError: The number of observations cannot be determined on an empty distance matrix.") := by
  unfold hierarchical_clustering
  rw [if_pos h]

/-- Witness for the amended C7 at a one-record input. -/
theorem hierarchical_clustering_degenerate_witness :
    hierarchical_clustering [[(0 : ℚ)]] (15 / 100)
      = .error ("ValueError: The number of observations cannot be determined on an empty distance matrix.") :=
  hierarchical_clustering_degenerate [[(0 : ℚ)]] (15 / 100) (by norm_num)

/-- Counterexample to C7 as stated: on a single record the clusterer
does not return a singleton cluster, it fails. -/
theorem hierarchical_clustering_singleton_counterexample :
    hierarchical_clustering [[(0 : ℚ)]] (15 / 100)
      = .error ("ValueError: The number of observations cannot be determined on an empty distance matrix.") := rfl

theorem cutTree_flatten : ∀ (t : ℚ) (tr : CTree),
    (cutTree t tr).flatten = leavesT tr := by
  intro t tr
  induction tr with
  | leaf i => simp [cutTree, leavesT]
  | node h l r ihl ihr =>
    show (if max h (max (maxDist l) (maxDist r)) ≤ t then [leavesT l ++ leavesT r]
      else cutTree t l ++ cutTree t r).flatten = leavesT l ++ leavesT r
    by_cases hm : max h (max (maxDist l) (maxDist r)) ≤ t
    · rw [if_pos hm]
      simp
    · rw [if_neg hm, List.flatten_append, ihl, ihr]

theorem cut_list_subset {t : ℚ} {tr : CTree} {cl : List Nat}
    (h : cl ∈ cutTree t tr) : ∀ x ∈ cl, x ∈ leavesT tr := by
  intro x hx
  rw [← cutTree_flatten t tr]
  exact List.mem_flatten.mpr ⟨cl, h, hx⟩

theorem cutTree_mono : ∀ (tr : CTree) (t1 t2 : ℚ), t1 ≤ t2 →
    ∀ cl ∈ cutTree t1 tr, ∃ cl2 ∈ cutTree t2 tr, ∀ x ∈ cl, x ∈ cl2 := by
  intro tr
  induction tr with
  | leaf i =>
    intro t1 t2 _ cl hcl
    exact ⟨cl, hcl, fun x hx => hx⟩
  | node h l r ihl ihr =>
    intro t1 t2 h12 cl hcl
    show ∃ cl2 ∈ (if max h (max (maxDist l) (maxDist r)) ≤ t2 then
        [leavesT l ++ leavesT r] else cutTree t2 l ++ cutTree t2 r), _
    by_cases hm2 : max h (max (maxDist l) (maxDist r)) ≤ t2
    · rw [if_pos hm2]
      refine ⟨leavesT l ++ leavesT r, List.mem_singleton.mpr rfl, ?_⟩
      intro x hx
      exact cut_list_subset hcl x hx
    · rw [if_neg hm2]
      have hm1 : ¬ max h (max (maxDist l) (maxDist r)) ≤ t1 :=
        fun hc => hm2 (le_trans hc h12)
      rw [cutTree, if_neg hm1] at hcl
      rcases List.mem_append.mp hcl with hcl2 | hcl2
      · obtain ⟨cl2, hcl2m, hsub⟩ := ihl t1 t2 h12 cl hcl2
        exact ⟨cl2, List.mem_append_left _ hcl2m, hsub⟩
      · obtain ⟨cl2, hcl2m, hsub⟩ := ihr t1 t2 h12 cl hcl2
        exact ⟨cl2, List.mem_append_right _ hcl2m, hsub⟩

theorem clusterIdAux_some : ∀ (cut : List (List Nat)) (k m i : Nat),
    clusterIdAux i k cut = some m →
    ∃ (a : Nat) (cl : List Nat), m = k + a ∧ cut[a]? = some cl ∧ i ∈ cl := by
  intro cut
  induction cut with
  | nil => intro k m i h; cases h
  | cons cl0 rest ih =>
    intro k m i h
    by_cases hi : i ∈ cl0
    · rw [clusterIdAux, if_pos hi] at h
      cases h
      exact ⟨0, cl0, by omega, by simp, hi⟩
    · rw [clusterIdAux, if_neg hi] at h
      obtain ⟨a, cl, hm, hget, hmem⟩ := ih (k + 1) m i h
      exact ⟨a + 1, cl, by omega, by simpa using hget, hmem⟩

theorem clusterIdAux_isSome : ∀ (cut : List (List Nat)) (k i : Nat),
    (∃ cl ∈ cut, i ∈ cl) → ∃ m, clusterIdAux i k cut = some m := by
  intro cut
  induction cut with
  | nil => rintro k i ⟨cl, hcl, _⟩; cases hcl
  | cons cl0 rest ih =>
    rintro k i ⟨cl, hcl, hmem⟩
    by_cases hi : i ∈ cl0
    · exact ⟨k, by rw [clusterIdAux, if_pos hi]⟩
    · rcases List.mem_cons.mp hcl with rfl | hcl2
      · exact absurd hmem hi
      · obtain ⟨m, hm⟩ := ih (k + 1) i ⟨cl, hcl2, hmem⟩
        exact ⟨m, by rw [clusterIdAux, if_neg hi]; exact hm⟩

theorem clusterIdAux_eq_of_mem : ∀ (cut : List (List Nat)) (k i j : Nat)
    (cl : List Nat), cut.flatten.Nodup → cl ∈ cut → i ∈ cl → j ∈ cl →
    clusterIdAux i k cut = clusterIdAux j k cut := by
  intro cut
  induction cut with
  | nil => intro k i j cl _ hcl _ _; cases hcl
  | cons cl0 rest ih =>
    intro k i j cl hnd hcl hi hj
    have hnd2 : (cl0 ++ rest.flatten).Nodup := by
      simpa using hnd
    have hdisj : ∀ x, x ∈ cl0 → x ∈ rest.flatten → False := by
      intro x h1 h2
      exact (List.disjoint_of_nodup_append hnd2) h1 h2
    rcases List.mem_cons.mp hcl with rfl | hclr
    · rw [clusterIdAux, if_pos hi, clusterIdAux, if_pos hj]
    · have hi0 : i ∉ cl0 := by
        intro hc
        exact hdisj i hc (List.mem_flatten.mpr ⟨cl, hclr, hi⟩)
      have hj0 : j ∉ cl0 := by
        intro hc
        exact hdisj j hc (List.mem_flatten.mpr ⟨cl, hclr, hj⟩)
      rw [clusterIdAux, if_neg hi0, clusterIdAux, if_neg hj0]
      exact ih (k + 1) i j cl (List.Nodup.of_append_right hnd2) hclr hi hj

theorem perm_cons_eraseIdx {α : Type} (d : α) : ∀ (l : List α) (k : Nat),
    k < l.length → List.Perm l (l.getD k d :: l.eraseIdx k) := by
  intro l
  induction l with
  | nil => intro k hk; simp at hk
  | cons a tl ih =>
    intro k hk
    cases k with
    | zero =>
      have h0 : (a :: tl).getD 0 d = a := by simp
      rw [h0]
      exact List.Perm.refl _
    | succ k' =>
      have hk' : k' < tl.length := by simpa using hk
      have h2 : (a :: tl).getD (k' + 1) d = tl.getD k' d := by simp
      rw [h2]
      have h3 : (a :: tl).eraseIdx (k' + 1) = a :: tl.eraseIdx k' := rfl
      rw [h3]
      exact List.Perm.trans ((ih k' hk').cons a) (List.Perm.swap _ _ _)

theorem getD_eraseIdx_of_lt {α : Type} (d : α) : ∀ (l : List α) (i j : Nat),
    i < j → (l.eraseIdx j).getD i d = l.getD i d := by
  intro l
  induction l with
  | nil => intro i j _; simp [List.eraseIdx]
  | cons a tl ih =>
    intro i j hij
    cases j with
    | zero => omega
    | succ j' =>
      have h1 : (a :: tl).eraseIdx (j' + 1) = a :: tl.eraseIdx j' := rfl
      rw [h1]
      cases i with
      | zero => simp
      | succ i' =>
        have h2 : (a :: tl.eraseIdx j').getD (i' + 1) d = (tl.eraseIdx j').getD i' d := by
          simp
        have h3 : (a :: tl).getD (i' + 1) d = tl.getD i' d := by simp
        rw [h2, h3]
        exact ih i' j' (by omega)

theorem bestPair_bounds {d : Nat → Nat → ℚ} {ts : List CTree} {i j : Nat} {h : ℚ}
    (hb : bestPair d ts = some (i, j, h)) : i < j ∧ j < ts.length := by
  unfold bestPair at hb
  have hinv := foldl_invariant
    (fun o : Option (Nat × Nat × ℚ) =>
      ∀ i2 j2 h2, o = some (i2, j2, h2) → i2 < j2 ∧ j2 < ts.length)
    (bestPairStep d ts) (pairsUpper ts.length) none
    (by intro i2 j2 h2 hcon; cases hcon)
    (by
      intro b p hp hbinv i2 j2 h2 heq
      rcases mem_pairsUpper.mp hp with ⟨hp1, hp2⟩
      cases b with
      | none =>
        have hred : bestPairStep d ts none p
            = some (p.1, p.2,
                avgDist d (ts.getD p.1 (.leaf 0)) (ts.getD p.2 (.leaf 0))) := rfl
        rw [hred] at heq
        cases heq
        exact ⟨hp1, hp2⟩
      | some x =>
        obtain ⟨xi, xj, xh⟩ := x
        have hred : bestPairStep d ts (some (xi, xj, xh)) p
            = if avgDist d (ts.getD p.1 (.leaf 0)) (ts.getD p.2 (.leaf 0)) < xh
              then some (p.1, p.2,
                avgDist d (ts.getD p.1 (.leaf 0)) (ts.getD p.2 (.leaf 0)))
              else some (xi, xj, xh) := rfl
        rw [hred] at heq
        by_cases hcmp : avgDist d (ts.getD p.1 (.leaf 0)) (ts.getD p.2 (.leaf 0)) < xh
        · rw [if_pos hcmp] at heq
          cases heq
          exact ⟨hp1, hp2⟩
        · rw [if_neg hcmp] at heq
          exact hbinv i2 j2 h2 heq)
  exact hinv i j h hb

theorem mergeStep_perm (d : Nat → Nat → ℚ) (ts : List CTree) :
    List.Perm ((mergeStep d ts).flatMap leavesT) (ts.flatMap leavesT) := by
  unfold mergeStep
  cases hbp : bestPair d ts with
  | none => exact List.Perm.refl _
  | some x =>
    obtain ⟨i, j, h⟩ := x
    obtain ⟨hij, hjn⟩ := bestPair_bounds hbp
    have h1 : List.Perm ts (ts.getD j (.leaf 0) :: ts.eraseIdx j) :=
      perm_cons_eraseIdx _ ts j hjn
    have hlen_e : i < (ts.eraseIdx j).length := by
      rw [List.length_eraseIdx]
      split
      · omega
      · omega
    have h2 : List.Perm (ts.eraseIdx j)
        ((ts.eraseIdx j).getD i (.leaf 0) :: (ts.eraseIdx j).eraseIdx i) :=
      perm_cons_eraseIdx _ _ i hlen_e
    rw [getD_eraseIdx_of_lt _ ts i j hij] at h2
    have hperm : List.Perm ts
        (ts.getD i (.leaf 0) :: ts.getD j (.leaf 0) :: (ts.eraseIdx j).eraseIdx i) :=
      List.Perm.trans h1 (List.Perm.trans (h2.cons _) (List.Perm.swap _ _ _))
    have hflat := List.Perm.flatMap_right leavesT hperm
    refine List.Perm.trans ?_ hflat.symm
    simp only [List.flatMap_append, List.flatMap_cons, List.flatMap_nil,
      List.append_nil, leavesT]
    exact List.Perm.trans List.perm_append_comm
      (List.Perm.of_eq (List.append_assoc _ _ _))

theorem linkLoop_perm (d : Nat → Nat → ℚ) : ∀ (fuel : Nat) (ts : List CTree),
    List.Perm ((linkLoop d fuel ts).flatMap leavesT) (ts.flatMap leavesT) := by
  intro fuel
  induction fuel with
  | zero => intro ts; exact List.Perm.refl _
  | succ f ih =>
    intro ts
    show List.Perm ((if ts.length ≤ 1 then ts
      else linkLoop d f (mergeStep d ts)).flatMap leavesT) _
    by_cases hl : ts.length ≤ 1
    · rw [if_pos hl]
    · rw [if_neg hl]
      exact List.Perm.trans (ih (mergeStep d ts)) (mergeStep_perm d ts)

theorem flatMap_leaves_range : ∀ (l : List Nat),
    ((l.map CTree.leaf).flatMap leavesT) = l := by
  intro l
  induction l with
  | nil => rfl
  | cons a tl ih =>
    show leavesT (.leaf a) ++ (tl.map CTree.leaf).flatMap leavesT = a :: tl
    rw [leavesT, ih]
    rfl

/-- C6: raising the threshold never splits a cluster.  If two records
share a cluster id at threshold t1 < t2, they also share one at t2. -/
theorem hierarchical_clustering_monotone (sim : List (List ℚ)) (t1 t2 : ℚ)
    (h12 : t1 < t2) (c1 c2 : List (Option Nat))
    (h1 : hierarchical_clustering sim t1 = .ok c1)
    (h2 : hierarchical_clustering sim t2 = .ok c2)
    (i j : Nat) (hi : i < sim.length) (hj : j < sim.length)
    (hsame : c1.getD i none = c1.getD j none) :
    c2.getD i none = c2.getD j none := by
  unfold hierarchical_clustering at h1 h2
  by_cases hn : sim.length < 2
  · rw [if_pos hn] at h1
    cases h1
  · rw [if_neg hn] at h1 h2
    cases hlink : linkLoop (toDist sim) sim.length ((List.range sim.length).map .leaf) with
    | nil => rw [hlink] at h1; cases h1
    | cons tree rest =>
      cases rest with
      | cons _ _ => rw [hlink] at h1; cases h1
      | nil =>
        rw [hlink] at h1 h2
        cases h1
        cases h2
        -- the tree's leaves are a permutation of range n
        have hleaves : List.Perm (leavesT tree) (List.range sim.length) := by
          have hp := linkLoop_perm (toDist sim) sim.length
            ((List.range sim.length).map .leaf)
          rw [hlink, flatMap_leaves_range] at hp
          have : ([tree].flatMap leavesT) = leavesT tree := by
            show leavesT tree ++ ([] : List CTree).flatMap leavesT = leavesT tree
            simp
          rw [this] at hp
          exact hp
        have hnodup : (leavesT tree).Nodup :=
          hleaves.nodup_iff.mpr (List.nodup_range _)
        have hmemleaf : ∀ k, k < sim.length → k ∈ leavesT tree := by
          intro k hk
          exact hleaves.mem_iff.mpr (List.mem_range.mpr hk)
        -- read the cluster ids off the map over range
        have hgetD : ∀ (t : ℚ) (k : Nat), k < sim.length →
            ((List.range sim.length).map (clusterId (cutTree t tree))).getD k none
              = clusterId (cutTree t tree) k := by
          intro t k hk
          rw [List.getD_eq_getElem?_getD, List.getElem?_map, List.getElem?_range hk]
          rfl
        rw [hgetD t1 i hi, hgetD t1 j hj] at hsame
        rw [hgetD t2 i hi, hgetD t2 j hj]
        -- i and j lie in a single cut list at t1
        have hflat1 : (cutTree t1 tree).flatten = leavesT tree := cutTree_flatten t1 tree
        have hexists : ∀ k, k < sim.length → ∃ cl ∈ cutTree t1 tree, k ∈ cl := by
          intro k hk
          have : k ∈ (cutTree t1 tree).flatten := by
            rw [hflat1]; exact hmemleaf k hk
          exact List.mem_flatten.mp this
        obtain ⟨mi, hmi⟩ := clusterIdAux_isSome (cutTree t1 tree) 0 i (hexists i hi)
        obtain ⟨mj, hmj⟩ := clusterIdAux_isSome (cutTree t1 tree) 0 j (hexists j hj)
        have hmeq : mi = mj := by
          have := hsame
          unfold clusterId at this
          rw [hmi, hmj] at this
          cases this
          rfl
        obtain ⟨ai, cli, hai, hgi, hii⟩ := clusterIdAux_some _ 0 mi i hmi
        obtain ⟨aj, clj, haj, hgj, hjj⟩ := clusterIdAux_some _ 0 mj j hmj
        have haij : ai = aj := by omega
        have hcleq : cli = clj := by
          rw [haij] at hgi
          rw [hgi] at hgj
          cases hgj
          rfl
        -- the containing cut list survives into a t2 cut list
        have hclmem : cli ∈ cutTree t1 tree := by
          have : (cutTree t1 tree)[ai]? = some cli := hgi
          exact List.getElem?_mem this
        obtain ⟨cl2, hcl2, hsub⟩ :=
          cutTree_mono tree t1 t2 (le_of_lt h12) cli hclmem
        have hflat2nodup : (cutTree t2 tree).flatten.Nodup := by
          rw [cutTree_flatten]; exact hnodup
        unfold clusterId
        exact clusterIdAux_eq_of_mem (cutTree t2 tree) 0 i j cl2 hflat2nodup hcl2
          (hsub i hii) (hsub j (hcleq ▸ hjj))

/-- Witness for C6 on a concrete 2-by-2 similarity matrix: the two
records merge at distance 0.2, so they share a cluster id at threshold
0.25 and therefore also at 0.3. -/
theorem hierarchical_clustering_monotone_witness :
    hierarchical_clustering [[(0 : ℚ), 80], [80, 0]] (3 / 10) = .ok [some 0, some 0]
    ∧ ([some 0, some 0] : List (Option Nat)).getD 0 none
        = ([some 0, some 0] : List (Option Nat)).getD 1 none := by
  have h1 : hierarchical_clustering [[(0 : ℚ), 80], [80, 0]] (1 / 4)
      = .ok [some 0, some 0] := by
    with_unfolding_all rfl
  have h2 : hierarchical_clustering [[(0 : ℚ), 80], [80, 0]] (3 / 10)
      = .ok [some 0, some 0] := by
    with_unfolding_all rfl
  exact ⟨h2, hierarchical_clustering_monotone [[(0 : ℚ), 80], [80, 0]]
    (1 / 4) (3 / 10) (by norm_num) [some 0, some 0] [some 0, some 0] h1 h2
    0 1 (by decide) (by decide) (by decide)⟩
